import Mathlib

/-!
Verification development for the `timespan` Go package
(`toolman.org/time/timespan`).

The package parses compact calendar-span strings such as "1Y2M3W4D5h6m7s"
into a `Timespan` structure (Years, Months, Days, Duration) and renders such
a structure back to text.  This file gives a shallow embedding of:

  * `coefficient` and its `appendRune` / `value` methods (coefficient.go),
  * `magset` and its `get` / `set` methods (magnitude.go),
  * the error type `timespanErr` with its kinds (errors.go),
  * `ParseTimespan` and `(*Timespan).String` (timespan.go),
  * the external collaborators `time.ParseDuration` and
    `(time.Duration).String` from the Go standard library, which
    `ParseTimespan` delegates to, and
  * the Pseudo-BNF grammar stated in the package documentation.

Go strings are modelled as `List Char` (the Go code iterates runes with
`for i, r := range s` and slices only at rune boundaries, so a rune-list
model is faithful).  Go's 64-bit `int` is modelled as `Int`, with the
explicit wrap `wrap64` applied exactly where the Go code can overflow, and
`uint64` quantities as `Nat` guarded by the same explicit bound checks the
Go code performs.
-/

instance {ε α : Type} [DecidableEq ε] [DecidableEq α] : DecidableEq (Except ε α)
  | .ok x, .ok y =>
    if h : x = y then .isTrue (by rw [h]) else .isFalse (fun hh => h (Except.ok.inj hh))
  | .ok _, .error _ => .isFalse (fun h => Except.noConfusion h)
  | .error _, .ok _ => .isFalse (fun h => Except.noConfusion h)
  | .error e, .error e' =>
    if h : e = e' then .isTrue (by rw [h]) else .isFalse (fun hh => h (Except.error.inj hh))

/-! ## Characters and decimal numerals -/

def isDigitChar (c : Char) : Bool :=
  if 48 ≤ c.toNat ∧ c.toNat ≤ 57 then true else false

def digitVal (c : Char) : Nat := c.toNat - 48

def digitChar (n : Nat) : Char := Char.ofNat (48 + n)

/-- Value of a digit string, most significant digit first (accumulator form). -/
def natOfDigitsAcc : Nat → List Char → Nat
  | a, [] => a
  | a, c :: t => natOfDigitsAcc (a * 10 + digitVal c) t

def natOfDigits (ds : List Char) : Nat := natOfDigitsAcc 0 ds

/-- Decimal digits of `n`; the first argument is fuel (`n` itself suffices). -/
def natDigitsAux : Nat → Nat → List Char
  | 0, _ => []
  | fuel + 1, n => if n = 0 then [] else natDigitsAux fuel (n / 10) ++ [digitChar (n % 10)]

/-- Decimal representation of a natural number, as printed by Go. -/
def natStr (n : Nat) : List Char := if n = 0 then ['0'] else natDigitsAux n n

/-- Decimal representation of an integer: models Go's `fmt` verb `%d`. -/
def intStr (z : Int) : List Char := if z < 0 then '-' :: natStr z.natAbs else natStr z.natAbs

/-- Exactly `p` decimal digits of `n % 10^p`, zero padded on the left. -/
def padDigits : Nat → Nat → List Char
  | 0, _ => []
  | p + 1, n => padDigits p (n / 10) ++ [digitChar (n % 10)]

/-- Two's-complement wrap of a 64-bit signed value: models Go `int` overflow. -/
def wrap64 (z : Int) : Int := (z + 2 ^ 63) % 2 ^ 64 - 2 ^ 63

def i64max : Int := 2 ^ 63 - 1

def i64min : Int := -(2 ^ 63)

/--
Models `strconv.Atoi` on a 64-bit platform: an optional sign followed by at
least one digit, rejected (error) on any other shape or when the value is
outside the `int64` range.  (Go's `ParseInt` tracks the range with cutoff
arithmetic digit by digit; the accept/reject behaviour is the same.)
-/
def atoi (s : List Char) : Except Unit Int :=
  match s with
  | [] => .error ()
  | c :: rest =>
    let neg : Bool := c = '-'
    let ds := if c = '-' ∨ c = '+' then rest else s
    if ds = [] then .error ()
    else if ds.all isDigitChar then
      let v : Int := if neg then -(natOfDigits ds : Int) else (natOfDigits ds : Int)
      if i64min ≤ v ∧ v ≤ i64max then .ok v else .error ()
    else .error ()

/--
Models Go's quoting of a string into a double-quoted literal as used in the
error messages at issue (`%q` / `time.quote`): printable characters pass
through, a quote or backslash gets a backslash escape.  (Control and other
non-printable characters, which no input in this development contains, are
escaped differently by Go's two quoters and are left as-is here.)
-/
def goQuote (s : List Char) : List Char :=
  '"' :: (s.flatMap fun c => if c = '"' ∨ c = '\\' then ['\\', c] else [c]) ++ ['"']

/-! ## Error taxonomy (errors.go) -/

inductive ErrType where
  | noErr
  | misplacedSignErr
  | missingCoefErr
  | unparseableCoefErr
  | unrecognizedMagErr
  | magnOrderUnkownErr
  | magnRestatedErr
  | magnOutOfOrderError
  | badDurationErr
  deriving DecidableEq, Repr

/-- Models `timespanErr`: an error kind, the annotated input, and a message. -/
structure TimespanErr where
  errorType : ErrType
  tsString : List Char := []
  message : List Char
  deriving DecidableEq, Repr

/-- Models `timespanError(etype, mesg, args...)` (message already formatted). -/
def timespanError (etype : ErrType) (mesg : List Char) : TimespanErr :=
  { errorType := etype, message := mesg }

/-- Models `(*timespanErr).withTimespan`. -/
def TimespanErr.withTimespan (te : TimespanErr) (ts : List Char) : TimespanErr :=
  { te with tsString := ts }

/-- Models `(*timespanErr).Error()`. -/
def TimespanErr.errorText (te : TimespanErr) : List Char :=
  if te.tsString = [] then te.message
  else ("parsing Timespan ".data) ++ goQuote te.tsString ++ (": ".data) ++ te.message

/-! ## Coefficient accumulator (coefficient.go, latest revision) -/

/--
Models `(*coefficient).appendRune`.  Go mutates the receiver and returns
`(bool, *timespanErr)`; here the updated rune list is returned alongside the
boolean, and the error case is the `Except` error.
-/
def coefficient.appendRune (c : List Char) (r : Char) : Except TimespanErr (Bool × List Char) :=
  if r = '-' ∨ r = '+' then
    if c.length > 0 then
      .error (timespanError .misplacedSignErr
        (("misplaced '".data) ++ [r] ++ ("' in coefficient ".data) ++ goQuote c))
    else .ok (true, c ++ [r])
  else if isDigitChar r then .ok (true, c ++ [r])
  else .ok (false, c)

/-- Models `(*coefficient).value(sign)`. -/
def coefficient.value (c : List Char) (sign : Int) : Except TimespanErr Int :=
  if c.length < 1 then .error (timespanError .missingCoefErr ("missing coefficient".data))
  else
    match atoi c with
    | .error _ =>
      .error (timespanError .unparseableCoefErr (("unparseable coefficient: ".data) ++ goQuote c))
    | .ok cv => if sign < 0 ∧ cv > 0 ∧ c.head? ≠ some '+' then .ok (-cv) else .ok cv

/-! ## Magnitude registry (magnitude.go) -/

def magOrder : List Char := ['Y', 'M', 'W', 'D']

/-- Models the `magnitude` struct. -/
structure Magnitude where
  label : List Char
  isSet : Bool := false
  value : Int := 0
  deriving DecidableEq, Repr

/--
Models `magset`: the Go map always holds exactly the four keys `Y M W D`
installed by `newMagset`, so a four-field structure is a faithful model.
-/
structure Magset where
  y : Magnitude
  m : Magnitude
  w : Magnitude
  d : Magnitude
  deriving DecidableEq, Repr

def newMagset : Magset :=
  { y := { label := "year".data }
    m := { label := "month".data }
    w := { label := "week".data }
    d := { label := "day".data } }

/-- The entry stored under a canonical key (only ever read at `Y M W D`). -/
def Magset.entry (ms : Magset) (r : Char) : Magnitude :=
  if r = 'Y' then ms.y else if r = 'M' then ms.m else if r = 'W' then ms.w else ms.d

/-- Models the map lookup `ms[r]`, which misses for keys outside `Y M W D`. -/
def Magset.lookup (ms : Magset) (r : Char) : Option Magnitude :=
  if r = 'Y' ∨ r = 'M' ∨ r = 'W' ∨ r = 'D' then some (ms.entry r) else none

/-- Models `magset.get` (only called with canonical keys). -/
def Magset.get (ms : Magset) (r : Char) : Int := (ms.entry r).value

def Magset.update (ms : Magset) (r : Char) (mg : Magnitude) : Magset :=
  if r = 'Y' then { ms with y := mg }
  else if r = 'M' then { ms with m := mg }
  else if r = 'W' then { ms with w := mg }
  else { ms with d := mg }

/-- First key at or after position `i` of `magOrder` whose entry is set. -/
def Magset.firstSetFrom (ms : Magset) (gs : List Char) : Option Char :=
  match gs with
  | [] => none
  | g :: t => if (ms.entry g).isSet then some g else ms.firstSetFrom t

/-- The body of `magset.set` after the lowercase-day normalization. -/
def Magset.setCanon (ms : Magset) (r : Char) (val : Int) : Except TimespanErr Magset :=
  match ms.lookup r with
  | none =>
    .error (timespanError .unrecognizedMagErr
      (("unrecognized magnitude: ".data) ++ goQuote [r]))
  | some mg =>
    match magOrder.indexOf? r with
    | none =>
      .error (timespanError .magnOrderUnkownErr
        (("indeterminate order for magnitude: ".data) ++ goQuote [r]))
    | some i =>
      if mg.isSet then
        .error (timespanError .magnRestatedErr
          (("magnitude ".data) ++ [r] ++ (" restated (current:".data) ++ intStr val ++ [r] ++
            (" previous:".data) ++ intStr mg.value ++ [r] ++ (")".data)))
      else
        match ms.firstSetFrom (magOrder.drop i) with
        | some g =>
          .error (timespanError .magnOutOfOrderError
            (("magnitude out of order: ".data) ++ (ms.entry g).label ++
              (" specified before ".data) ++ mg.label))
        | none => .ok (ms.update r { mg with isSet := true, value := val })

/-- Models `magset.set` (normalize `'d'` to `'D'`, then the checks above). -/
def Magset.set (ms : Magset) (r0 : Char) (val : Int) : Except TimespanErr Magset :=
  ms.setCanon (if r0 = 'd' then 'D' else r0) val

/-! ## The external collaborator `time.ParseDuration` (Go standard library)

`ParseTimespan` calls `time.ParseDuration` on every suffix of its input and
for pure-duration inputs, so its behaviour decides several claims.  The
definitions below translate the Go standard library implementation
(`leadingInt`, `leadingFraction`, `unitMap` and the main loop of
`ParseDuration`).  Go scans bytes, but every byte of a multi-byte rune is
non-ASCII and therefore treated by the scan exactly like the rune itself
(never a digit, dot, sign or unit-map hit), so the rune-list model agrees
with the byte scan on all inputs. -/

/-- Models Go's `leadingInt`: digits into a `uint64` with overflow checks. -/
def leadingIntAux : Nat → List Char → Except Unit (Nat × List Char)
  | x, [] => .ok (x, [])
  | x, c :: rest =>
    if isDigitChar c = false then .ok (x, c :: rest)
    else if x > 2 ^ 63 / 10 then .error ()
    else
      let y := x * 10 + digitVal c
      if y > 2 ^ 63 then .error () else leadingIntAux y rest

/--
Models Go's `leadingFraction`, returning (digits value, scale, rest).  Go
keeps `scale` in a `float64`; every power of ten it can reach (at most
`10^19`, since `scale` stops growing once the digit value overflows) is
exactly representable, so a `Nat` scale is faithful.
-/
def leadingFractionAux : Nat → Nat → Bool → List Char → Nat × Nat × List Char
  | x, scale, _, [] => (x, scale, [])
  | x, scale, overflow, c :: rest =>
    if isDigitChar c = false then (x, scale, c :: rest)
    else if overflow = true then leadingFractionAux x scale true rest
    else if x > (2 ^ 63 - 1) / 10 then leadingFractionAux x scale true rest
    else
      let y := x * 10 + digitVal c
      if y > 2 ^ 63 then leadingFractionAux x scale true rest
      else leadingFractionAux y (scale * 10) false rest

/-- Models Go's `unitMap` (nanosecond multipliers). -/
def unitMap (u : List Char) : Option Nat :=
  if u = ("ns".data) then some 1
  else if u = ("us".data) then some 1000
  else if u = ("µs".data) then some 1000
  else if u = ("μs".data) then some 1000
  else if u = ("ms".data) then some 1000000
  else if u = ("s".data) then some 1000000000
  else if u = ("m".data) then some 60000000000
  else if u = ("h".data) then some 3600000000000
  else none

/-- Length of the unit token: characters up to the next digit or dot. -/
def unitLen : List Char → Nat
  | [] => 0
  | c :: t => if c = '.' ∨ isDigitChar c = true then 0 else unitLen t + 1

def pdInvalid (orig : List Char) : List Char :=
  ("time: invalid duration ".data) ++ goQuote orig

/-- The three failure shapes of one pass of `ParseDuration`'s segment loop. -/
inductive PdSegErr where
  | invalid
  | missingUnit
  | unknownUnit (u : List Char)
  deriving DecidableEq, Repr

/--
The `(\.[0-9]*)?` phase of one pass of `ParseDuration`'s segment loop:
returns `(f, scale, rest, post)` — the fraction digits' value, the scale,
the remaining input, and whether any fraction digit was consumed.
-/
def pdFrac (s1 : List Char) : Nat × Nat × List Char × Bool :=
  if s1.head? = some '.' then
    ((leadingFractionAux 0 1 false s1.tail).1,
      (leadingFractionAux 0 1 false s1.tail).2.1,
      (leadingFractionAux 0 1 false s1.tail).2.2,
      decide ((leadingFractionAux 0 1 false s1.tail).2.2.length ≠ s1.tail.length))
  else (0, 1, s1, false)

/--
The unit-token phase plus the per-segment value computation and checks.
Go computes the fractional contribution as
`uint64(float64(f) * (float64(unit)/scale))`; on every string this
development evaluates or quantifies over, the factors and the product are
exactly representable `float64` integers and the scale divides the unit, so
the float computation is exact and equals the integer `f * unit / scale`
used here.
-/
def pdUnit (v f scale : Nat) (s2 : List Char) : Except PdSegErr (Nat × List Char) :=
  if unitLen s2 = 0 then .error .missingUnit
  else
    match unitMap (s2.take (unitLen s2)) with
    | none => .error (.unknownUnit (s2.take (unitLen s2)))
    | some unit =>
      if v > 2 ^ 63 / unit then .error .invalid
      else
        if f > 0 ∧ (if f > 0 then v * unit + f * unit / scale else v * unit) > 2 ^ 63 then
          .error .invalid
        else .ok ((if f > 0 then v * unit + f * unit / scale else v * unit), s2.drop (unitLen s2))

def pdSegment (s : List Char) : Except PdSegErr (Nat × List Char) :=
  match s with
  | [] => .error .invalid
  | c :: s' =>
    if ¬(c = '.' ∨ isDigitChar c = true) then .error .invalid
    else
      match leadingIntAux 0 (c :: s') with
      | .error _ => .error .invalid
      | .ok (v, s1) =>
        if s1.length = (c :: s').length ∧ (pdFrac s1).2.2.2 = false then .error .invalid
        else pdUnit v (pdFrac s1).1 (pdFrac s1).2.1 (pdFrac s1).2.2.1

/--
The segment loop of `ParseDuration` (`for s != ""`), accumulating into a
`uint64` with the same overflow check as Go.  Each successful pass consumes
at least one character, so fuel `s.length + 1` never runs out.
-/
def pdLoop : Nat → List Char → List Char → Nat → Except (List Char) Nat
  | _, _, [], d => .ok d
  | 0, orig, _ :: _, _ => .error (pdInvalid orig)
  | fuel + 1, orig, c :: s', d =>
    match pdSegment (c :: s') with
    | .error .invalid => .error (pdInvalid orig)
    | .error .missingUnit => .error (("time: missing unit in duration ".data) ++ goQuote orig)
    | .error (.unknownUnit u) =>
      .error (("time: unknown unit ".data) ++ goQuote u ++ (" in duration ".data) ++ goQuote orig)
    | .ok (v2, s3) =>
      if d + v2 > 2 ^ 63 then .error (pdInvalid orig)
      else pdLoop fuel orig s3 (d + v2)

/--
`ParseDuration` after the optional leading sign has been consumed: the `"0"`
special case, the empty-input rejection, the segment loop, and the final
negation / overflow handling.
-/
def pdTop (orig : List Char) (neg : Bool) (s : List Char) : Except (List Char) Int :=
  if s = ['0'] then .ok 0
  else if s = [] then .error (pdInvalid orig)
  else
    match pdLoop (s.length + 1) orig s 0 with
    | .error e => .error e
    | .ok d =>
      if neg = true then .ok (-(d : Int))
      else if (d : Int) > i64max then .error (pdInvalid orig)
      else .ok (d : Int)

/-- Models `time.ParseDuration`; the error payload is the message text. -/
def ParseDuration (orig : List Char) : Except (List Char) Int :=
  if orig.head? = some '-' then pdTop orig true orig.tail
  else if orig.head? = some '+' then pdTop orig false orig.tail
  else pdTop orig false orig

/-! ## The external collaborator `(time.Duration).String` -/

/--
Models Go's `fmtFrac`: prints up to `prec` fractional digits of `v`
(least-significant first, to the left), omitting trailing zeros and the
decimal point when the whole fraction is zero; returns `v / 10^prec`.
-/
def fmtFracAux : Nat → Nat → Bool → List Char → List Char × Nat
  | 0, v, pr, acc => (if pr = true then '.' :: acc else acc, v)
  | p + 1, v, pr, acc =>
    let digit := v % 10
    let pr' := pr || decide (digit ≠ 0)
    fmtFracAux p (v / 10) pr' (if pr' = true then digitChar digit :: acc else acc)

def fmtFrac (v : Nat) (prec : Nat) : List Char × Nat := fmtFracAux prec v false []

/-- Models `(time.Duration).String` (Go's `Duration.format`). -/
def durationString (dv : Int) : List Char :=
  let u := dv.natAbs
  let core :=
    if u < 1000000000 then
      if u = 0 then ("0s".data)
      else if u < 1000 then natStr u ++ ("ns".data)
      else if u < 1000000 then
        let r := fmtFrac u 3
        natStr r.2 ++ r.1 ++ ("µs".data)
      else
        let r := fmtFrac u 6
        natStr r.2 ++ r.1 ++ ("ms".data)
    else
      let r := fmtFrac u 9
      let secPart := natStr (r.2 % 60) ++ r.1 ++ ['s']
      let u2 := r.2 / 60
      if u2 = 0 then secPart
      else
        let minPart := natStr (u2 % 60) ++ ['m'] ++ secPart
        let u3 := u2 / 60
        if u3 = 0 then minPart else natStr u3 ++ ['h'] ++ minPart
  if dv < 0 then '-' :: core else core

/-! ## Timespan, ParseTimespan and the renderer (timespan.go) -/

/-- Models the `Timespan` struct (`int` fields and a `time.Duration`). -/
structure Timespan where
  Years : Int := 0
  Months : Int := 0
  Days : Int := 0
  Duration : Int := 0
  deriving DecidableEq, Repr

/--
The error result of `ParseTimespan`: either a typed `*timespanErr` or the
plain untyped error built by `fmt.Errorf` on the no-value path.
-/
inductive ParseErr where
  | tsErr (e : TimespanErr)
  | genericErr (msg : List Char)
  deriving DecidableEq, Repr

/-- Models `strings.IndexAny(s, "YMWDd") != -1`. -/
def isMagAny (c : Char) : Bool :=
  if c = 'Y' ∨ c = 'M' ∨ c = 'W' ∨ c = 'D' ∨ c = 'd' then true else false

def containsMag (s : List Char) : Bool := s.any isMagAny

/-- The seconds part of the `u >= Second` branch of `Duration.format`. -/
def secText (u : Nat) : List Char :=
  natStr ((fmtFrac u 9).2 % 60) ++ (fmtFrac u 9).1 ++ (['s'])

/-- The minutes-and-seconds tail of the `u >= Second` branch. -/
def minText (u : Nat) : List Char :=
  natStr ((fmtFrac u 9).2 / 60 % 60) ++ (['m']) ++ secText u

/--
The body of `Duration.format` without the sign: definitionally equal to the
`core` computed inside `durationString` (the `let`s written out).
-/
def durCore (u : Nat) : List Char :=
  if u < 1000000000 then
    if u = 0 then ("0s".data)
    else if u < 1000 then natStr u ++ ("ns".data)
    else if u < 1000000 then natStr (fmtFrac u 3).2 ++ (fmtFrac u 3).1 ++ ("µs".data)
    else natStr (fmtFrac u 6).2 ++ (fmtFrac u 6).1 ++ ("ms".data)
  else
    if (fmtFrac u 9).2 / 60 = 0 then secText u
    else if (fmtFrac u 9).2 / 60 / 60 = 0 then minText u
    else natStr ((fmtFrac u 9).2 / 60 / 60) ++ (['h']) ++ minText u

/--
`CoreOK u s`: the segment loop of `ParseDuration` evaluates `s` to `u`, and
`s` starts with a digit, has at least two characters and contains no
magnitude letter.
-/
def CoreOK (u : Nat) (s : List Char) : Prop :=
  (∀ orig, pdLoop (s.length + 1) orig s 0 = .ok u) ∧
  (∃ c t, s = c :: t ∧ isDigitChar c = true) ∧
  2 ≤ s.length ∧ ∀ c ∈ s, isMagAny c = false

/-- A magnitude registry with given calendar flags and values (week unset). -/
def msOf (a b c : Int) (fy fm fd : Bool) : Magset :=
  { y := { label := ("year".data), isSet := fy, value := a }
    m := { label := ("month".data), isSet := fm, value := b }
    w := { label := ("week".data) }
    d := { label := ("day".data), isSet := fd, value := c } }


/-- The mutable state of `ParseTimespan`'s scan loop. -/
structure LoopState where
  ms : Magset
  sign : Int
  valid : Bool
  coef : List Char
  dur : Int
  deriving DecidableEq, Repr

def initState : LoopState :=
  { ms := newMagset, sign := 1, valid := false, coef := [], dur := 0 }

/--
Models the `for i, r := range s` loop of `ParseTimespan`: at each rune, try
`time.ParseDuration` on the remaining suffix (success records the duration
and breaks), otherwise feed the rune to the coefficient accumulator, and on
rejection commit the coefficient into the registry.
-/
def runLoop : List Char → LoopState → Except TimespanErr LoopState
  | [], st => .ok st
  | r :: rest, st =>
    match ParseDuration (r :: rest) with
    | .ok dv => .ok { st with dur := dv, valid := true }
    | .error _ =>
      match coefficient.appendRune st.coef r with
      | .error e => .error e
      | .ok (true, c') => runLoop rest { st with coef := c' }
      | .ok (false, _) =>
        match coefficient.value st.coef st.sign with
        | .error e => .error e
        | .ok v =>
          match st.ms.set r v with
          | .error e => .error e
          | .ok ms' =>
            runLoop rest
              { st with ms := ms', sign := if v < 0 then -1 else 1, valid := true, coef := [] }

/--
The epilogue of `ParseTimespan`: the `!valid` check and the field assembly
`Years/Months/Days` (weeks folded as `Days += get('W') * 7`, with Go's
wrapping 64-bit arithmetic made explicit).
-/
def finishParse (s : List Char) (st : LoopState) : Except ParseErr Timespan :=
  if st.valid = false then
    .error (.genericErr (("no value derived for Timespan ".data) ++ goQuote s))
  else
    .ok { Years := st.ms.get 'Y', Months := st.ms.get 'M',
          Days := wrap64 (st.ms.get 'D' + wrap64 (st.ms.get 'W' * 7)),
          Duration := st.dur }

/-- Models `ParseTimespan`. -/
def ParseTimespan (s : List Char) : Except ParseErr Timespan :=
  if containsMag s = false then
    match ParseDuration s with
    | .error e => .error (.tsErr (timespanError .badDurationErr e))
    | .ok dv => .ok { Duration := dv }
  else
    match runLoop s initState with
    | .error e => .error (.tsErr (e.withTimespan s))
    | .ok st => finishParse s st

/--
Models `(*Timespan).String()` (named `render` here; `String` is a type).
The Go method grows a string through `fmt.Sprintf("%s...", s, ...)` steps;
that accumulation is exactly the concatenation of the four optional parts.
-/
def Timespan.render (ts : Timespan) : List Char :=
  (if ts.Years ≠ 0 then intStr ts.Years ++ ['Y'] else []) ++
    (if ts.Months ≠ 0 then intStr ts.Months ++ ['M'] else []) ++
    (if ts.Days ≠ 0 then intStr ts.Days ++ ['D'] else []) ++
    (if ts.Duration ≠ 0 then durationString ts.Duration else [])

/-- Models `(*Timespan).Equal`. -/
def Timespan.Equal (ts ots : Timespan) : Bool :=
  decide (ts.Duration = ots.Duration ∧ ts.Days = ots.Days ∧
    ts.Months = ots.Months ∧ ts.Years = ots.Years)

/-- The error kind of a parse result (`none` when it is not a typed error). -/
def resultKind : Except ParseErr Timespan → Option ErrType
  | .ok _ => none
  | .error (.tsErr e) => some e.errorType
  | .error (.genericErr _) => none

/-! ## The documented grammar (timespan.go doc comment, §Grammar) -/

/-- Match one `<period>`: optional sign, one or more digits, one magnitude. -/
def matchPeriod (s : List Char) : Option (List Char) :=
  let s1 :=
    match s with
    | c :: t => if c = '-' ∨ c = '+' then t else s
    | [] => []
  let ds := s1.takeWhile isDigitChar
  let s2 := s1.drop ds.length
  if ds = [] then none
  else
    match s2 with
    | c :: t => if isMagAny c = true then some t else none
    | [] => none

def periodsAcceptAux : Nat → List Char → Bool
  | 0, _ => false
  | fuel + 1, s =>
    match matchPeriod s with
    | none => false
    | some [] => true
    | some rest => periodsAcceptAux fuel rest

/-- Accept `<periods>` (one or more periods covering the whole string). -/
def periodsAccept (s : List Char) : Bool := periodsAcceptAux (s.length + 1) s

def pdOk (s : List Char) : Bool :=
  match ParseDuration s with
  | .ok _ => true
  | .error _ => false

/-- The grammar: `<periods>`, or `<duration>`, or `<periods> <duration>`. -/
def grammarAccepts (s : List Char) : Bool :=
  periodsAccept s || pdOk s ||
    (List.range s.length).any fun k =>
      decide (0 < k) && periodsAccept (s.take k) && pdOk (s.drop k)

/-! ## Side conditions used by the round-trip analysis -/

/-- No strictly positive entry after an earlier strictly negative entry. -/
def noNegThenPos : List Int → Bool → Bool
  | [], _ => true
  | x :: t, seenNeg =>
    if 0 < x ∧ seenNeg = true then false
    else noNegThenPos t (seenNeg || decide (x < 0))

/--
The calendar fields, in rendering order, never place a positive value after
a negative one (zero fields are skipped by the renderer and do not count).
-/
def Timespan.signOK (ts : Timespan) : Bool :=
  noNegThenPos [ts.Years, ts.Months, ts.Days] false

/-- All four fields within the ranges of their Go types (`int`, `Duration`). -/
@[reducible] def Timespan.inRange (ts : Timespan) : Prop :=
  i64min ≤ ts.Years ∧ ts.Years ≤ i64max ∧ i64min ≤ ts.Months ∧ ts.Months ≤ i64max ∧
    i64min ≤ ts.Days ∧ ts.Days ≤ i64max ∧ i64min ≤ ts.Duration ∧ ts.Duration ≤ i64max


/-- State reached after parsing "4W1d": Week = 4 and Day = 1 recorded, valid. -/
def st41 : LoopState where
  ms :=
    { y := { label := ("year".data) }
      m := { label := ("month".data) }
      w := { label := ("week".data), isSet := true, value := 4 }
      d := { label := ("day".data), isSet := true, value := 1 } }
  sign := 1
  valid := true
  coef := []
  dur := 0

/-- The strictly-ordered pairs of magnitude letters (coarser first). -/
def magPairs : List (Char × Char) :=
  [('Y', 'M'), ('Y', 'W'), ('Y', 'D'), ('M', 'W'), ('M', 'D'), ('W', 'D')]

/-! ## Lemmas: decimal numerals -/

theorem digitVal_digitChar {d : Nat} (h : d < 10) : digitVal (digitChar d) = d := by
  interval_cases d <;> rfl

theorem isDigitChar_digitChar {d : Nat} (h : d < 10) : isDigitChar (digitChar d) = true := by
  interval_cases d <;> rfl

theorem natDigitsAux_stable :
    ∀ f1 f2 n, n ≤ f1 → n ≤ f2 → natDigitsAux f1 n = natDigitsAux f2 n := by
  intro f1
  induction f1 with
  | zero =>
    intro f2 n h1 _
    have hn : n = 0 := by omega
    subst hn
    cases f2 <;> simp [natDigitsAux]
  | succ f ih =>
    intro f2 n h1 h2
    by_cases hn : n = 0
    · subst hn
      cases f2 <;> simp [natDigitsAux]
    · have hdiv : n / 10 < n := Nat.div_lt_self (Nat.pos_of_ne_zero hn) (by norm_num)
      cases f2 with
      | zero => omega
      | succ f2' =>
        simp only [natDigitsAux, if_neg hn]
        rw [ih f2' (n / 10) (by omega) (by omega)]

theorem natOfDigitsAcc_append (l : List Char) :
    ∀ a c, natOfDigitsAcc a (l ++ [c]) = natOfDigitsAcc a l * 10 + digitVal c := by
  induction l with
  | nil => intro a c; rfl
  | cons x t ih =>
    intro a c
    show natOfDigitsAcc (a * 10 + digitVal x) (t ++ [c]) = _
    exact ih (a * 10 + digitVal x) c

theorem natOfDigitsAcc_natDigitsAux :
    ∀ fuel n, n ≤ fuel → natOfDigitsAcc 0 (natDigitsAux fuel n) = n := by
  intro fuel
  induction fuel with
  | zero =>
    intro n h
    have hn : n = 0 := by omega
    subst hn
    rfl
  | succ f ih =>
    intro n h
    by_cases hn : n = 0
    · subst hn; rfl
    · have hdiv : n / 10 < n := Nat.div_lt_self (Nat.pos_of_ne_zero hn) (by norm_num)
      simp only [natDigitsAux, if_neg hn]
      rw [natOfDigitsAcc_append, ih (n / 10) (by omega), digitVal_digitChar (Nat.mod_lt n (by norm_num))]
      omega

theorem natOfDigits_natStr (n : Nat) : natOfDigits (natStr n) = n := by
  unfold natOfDigits natStr
  by_cases hn : n = 0
  · subst hn; rfl
  · rw [if_neg hn]
    exact natOfDigitsAcc_natDigitsAux n n le_rfl

theorem natDigitsAux_all_digits :
    ∀ fuel n c, c ∈ natDigitsAux fuel n → isDigitChar c = true := by
  intro fuel
  induction fuel with
  | zero => intro n c h; simp [natDigitsAux] at h
  | succ f ih =>
    intro n c h
    by_cases hn : n = 0
    · subst hn; simp [natDigitsAux] at h
    · simp only [natDigitsAux, if_neg hn, List.mem_append, List.mem_singleton] at h
      rcases h with h | h
      · exact ih (n / 10) c h
      · subst h; exact isDigitChar_digitChar (Nat.mod_lt n (by norm_num))

theorem natStr_all_digits {n : Nat} {c : Char} (h : c ∈ natStr n) : isDigitChar c = true := by
  unfold natStr at h
  by_cases hn : n = 0
  · rw [if_pos hn] at h; simp at h; subst h; rfl
  · rw [if_neg hn] at h; exact natDigitsAux_all_digits n n c h

theorem natStr_ne_nil (n : Nat) : natStr n ≠ [] := by
  unfold natStr
  by_cases hn : n = 0
  · rw [if_pos hn]; simp
  · rw [if_neg hn]
    obtain ⟨m, rfl⟩ : ∃ m, n = m + 1 := ⟨n - 1, by omega⟩
    simp [natDigitsAux, hn]

theorem digit_ne_sign {c : Char} (h : isDigitChar c = true) : ¬(c = '-' ∨ c = '+') := by
  rintro (rfl | rfl) <;> simp [isDigitChar] at h

theorem wrap64_eq_self {z : Int} (h1 : i64min ≤ z) (h2 : z ≤ i64max) : wrap64 z = z := by
  have hp : (2 : Int) ^ 63 = 9223372036854775808 := by norm_num
  have hq : (2 : Int) ^ 64 = 18446744073709551616 := by norm_num
  simp only [wrap64, i64min, i64max, hp, hq] at h1 h2 ⊢
  omega

theorem wrap64_add_wrapR (a b : Int) : wrap64 (a + wrap64 b) = wrap64 (a + b) := by
  have hp : (2 : Int) ^ 63 = 9223372036854775808 := by norm_num
  have hq : (2 : Int) ^ 64 = 18446744073709551616 := by norm_num
  simp only [wrap64, hp, hq]
  omega

theorem wrap64_range (z : Int) : i64min ≤ wrap64 z ∧ wrap64 z ≤ i64max := by
  have hp : (2 : Int) ^ 63 = 9223372036854775808 := by norm_num
  have hq : (2 : Int) ^ 64 = 18446744073709551616 := by norm_num
  simp only [wrap64, i64min, i64max, hp, hq]
  omega

/-! ## Lemmas: `strconv.Atoi` and `coefficient.value` on rendered numerals -/

theorem natOfDigits_cast_nonneg (s : List Char) : (0 : Int) ≤ (natOfDigits s : Int) :=
  Int.natCast_nonneg _

theorem i64min_lt_zero : i64min < 0 := by norm_num [i64min]

theorem atoi_digits {s : List Char} (hne : s ≠ []) (hdig : ∀ c ∈ s, isDigitChar c = true)
    (hrange : (natOfDigits s : Int) ≤ i64max) : atoi s = .ok (natOfDigits s) := by
  obtain ⟨c, t, rfl⟩ := List.exists_cons_of_ne_nil hne
  have hc : isDigitChar c = true := hdig c (by simp)
  have hcm : ¬(c = '-' ∨ c = '+') := digit_ne_sign hc
  have hcminus : ¬ c = '-' := fun h => hcm (Or.inl h)
  simp only [atoi, if_neg hcm, decide_eq_false hcminus, Bool.false_eq_true, if_false]
  rw [if_neg (by simp : ¬ (c :: t) = [])]
  rw [if_pos (by rw [List.all_eq_true]; intro x hx; exact hdig x hx)]
  rw [if_pos ⟨le_trans (le_of_lt i64min_lt_zero) (natOfDigits_cast_nonneg _), hrange⟩]

theorem atoi_neg_digits {t : List Char} (hne : t ≠ []) (hdig : ∀ c ∈ t, isDigitChar c = true)
    (hrange : i64min ≤ -(natOfDigits t : Int)) : atoi ('-' :: t) = .ok (-(natOfDigits t)) := by
  simp only [atoi, decide_eq_true (Or.inl rfl : ('-' = '-' ∨ '-' = '+')),
    decide_eq_true (rfl : '-' = '-'), if_true, eq_self_iff_true, true_or]
  rw [if_neg hne]
  rw [if_pos (by rw [List.all_eq_true]; intro x hx; exact hdig x hx)]
  rw [if_pos ⟨hrange, le_trans (by omega : -(natOfDigits t : Int) ≤ 0)
    (by norm_num [i64max] : (0 : Int) ≤ i64max)⟩]
  simp

theorem intStr_nonneg {z : Int} (h : 0 ≤ z) : intStr z = natStr z.natAbs := by
  unfold intStr
  rw [if_neg (by omega : ¬ z < 0)]

theorem atoi_intStr {z : Int} (h1 : i64min ≤ z) (h2 : z ≤ i64max) : atoi (intStr z) = .ok z := by
  by_cases hz : z < 0
  · unfold intStr
    rw [if_pos hz]
    rw [atoi_neg_digits (natStr_ne_nil _) (fun c hc => natStr_all_digits hc)
      (by rw [natOfDigits_natStr]; omega)]
    congr 1
    rw [natOfDigits_natStr]
    omega
  · rw [intStr_nonneg (by omega)]
    rw [atoi_digits (natStr_ne_nil _) (fun c hc => natStr_all_digits hc)
      (by rw [natOfDigits_natStr]; omega)]
    congr 1
    rw [natOfDigits_natStr]
    omega

theorem intStr_ne_nil (z : Int) : intStr z ≠ [] := by
  unfold intStr
  by_cases hz : z < 0
  · rw [if_pos hz]; simp
  · rw [if_neg hz]; exact natStr_ne_nil _

theorem value_intStr {z sign : Int} (h1 : i64min ≤ z) (h2 : z ≤ i64max) (hs : sign < 0 → z < 0) :
    coefficient.value (intStr z) sign = .ok z := by
  unfold coefficient.value
  rw [if_neg (by
    have := List.length_pos.mpr (intStr_ne_nil z)
    omega)]
  rw [atoi_intStr h1 h2]
  show (if sign < 0 ∧ z > 0 ∧ (intStr z).head? ≠ some '+' then Except.ok (-z) else Except.ok z) =
    Except.ok z
  rw [if_neg (by rintro ⟨hs0, hz0, -⟩; have := hs hs0; omega)]

/-! ## Step equations (definitional) for the recursive scan functions -/

theorem leadingIntAux_cons (x : Nat) (c : Char) (t : List Char) :
    leadingIntAux x (c :: t) =
      if isDigitChar c = false then .ok (x, c :: t)
      else if x > 2 ^ 63 / 10 then .error ()
      else if x * 10 + digitVal c > 2 ^ 63 then .error ()
      else leadingIntAux (x * 10 + digitVal c) t := rfl

theorem leadingFractionAux_cons (x scale : Nat) (overflow : Bool) (c : Char) (t : List Char) :
    leadingFractionAux x scale overflow (c :: t) =
      if isDigitChar c = false then (x, scale, c :: t)
      else if overflow = true then leadingFractionAux x scale true t
      else if x > (2 ^ 63 - 1) / 10 then leadingFractionAux x scale true t
      else if x * 10 + digitVal c > 2 ^ 63 then leadingFractionAux x scale true t
      else leadingFractionAux (x * 10 + digitVal c) (scale * 10) false t := rfl

theorem natOfDigitsAcc_cons (a : Nat) (c : Char) (t : List Char) :
    natOfDigitsAcc a (c :: t) = natOfDigitsAcc (a * 10 + digitVal c) t := rfl

/-! ## Lemmas: `leadingInt`, `leadingFraction` and segment decomposition -/

theorem natOfDigitsAcc_le (l : List Char) : ∀ a, a ≤ natOfDigitsAcc a l := by
  induction l with
  | nil => intro a; exact le_rfl
  | cons c t ih =>
    intro a
    exact le_trans (by omega : a ≤ a * 10 + digitVal c) (ih (a * 10 + digitVal c))

theorem leadingIntAux_digits :
    ∀ (ds rest : List Char) (x : Nat), (∀ c ∈ ds, isDigitChar c = true) →
      (rest = [] ∨ ∃ c t, rest = c :: t ∧ isDigitChar c = false) →
      natOfDigitsAcc x ds ≤ 2 ^ 63 →
      leadingIntAux x (ds ++ rest) = .ok (natOfDigitsAcc x ds, rest) := by
  intro ds
  induction ds with
  | nil =>
    intro rest x _ hrest _
    rcases hrest with rfl | ⟨c, t, rfl, hc⟩
    · rfl
    · show leadingIntAux x (c :: t) = _
      rw [leadingIntAux_cons, if_pos hc]
      rfl
  | cons c ds' ih =>
    intro rest x hdig hrest hle
    have hc : isDigitChar c = true := hdig c (by simp)
    have hle2 : natOfDigitsAcc (x * 10 + digitVal c) ds' ≤ 2 ^ 63 := hle
    have hy : x * 10 + digitVal c ≤ 2 ^ 63 := le_trans (natOfDigitsAcc_le ds' _) hle2
    show leadingIntAux x (c :: (ds' ++ rest)) = _
    rw [leadingIntAux_cons]
    rw [if_neg (by simp [hc])]
    rw [if_neg (by
      have : x ≤ 2 ^ 63 / 10 := (Nat.le_div_iff_mul_le (by norm_num)).mpr (by omega)
      omega)]
    rw [if_neg (by omega : ¬ x * 10 + digitVal c > 2 ^ 63)]
    exact ih rest (x * 10 + digitVal c) (fun d hd => hdig d (by simp [hd])) hrest hle2

theorem leadingIntAux_sub :
    ∀ (s : List Char) (x v : Nat) (rest : List Char), leadingIntAux x s = .ok (v, rest) →
      ∃ ds, s = ds ++ rest ∧ (∀ c ∈ ds, isDigitChar c = true) ∧
        (rest = [] ∨ ∃ c t, rest = c :: t ∧ isDigitChar c = false) := by
  intro s
  induction s with
  | nil =>
    intro x v rest h
    have h' : (Except.ok (x, []) : Except Unit (Nat × List Char)) = .ok (v, rest) := h
    injection h' with h''
    injection h'' with hx hr
    subst hr
    exact ⟨[], rfl, by simp, Or.inl rfl⟩
  | cons c t ih =>
    intro x v rest h
    rw [leadingIntAux_cons] at h
    by_cases hc : isDigitChar c = false
    · rw [if_pos hc] at h
      injection h with h''
      injection h'' with hx hr
      subst hr
      exact ⟨[], rfl, by simp, Or.inr ⟨c, t, rfl, hc⟩⟩
    · rw [if_neg hc] at h
      by_cases h1 : x > 2 ^ 63 / 10
      · rw [if_pos h1] at h; exact absurd h (by simp)
      · rw [if_neg h1] at h
        by_cases h2 : x * 10 + digitVal c > 2 ^ 63
        · rw [if_pos h2] at h; exact absurd h (by simp)
        · rw [if_neg h2] at h
          obtain ⟨ds, hds, hdig, hrest⟩ := ih _ _ _ h
          refine ⟨c :: ds, by simp [hds], ?_, hrest⟩
          intro d hd
          rcases List.mem_cons.mp hd with rfl | hd'
          · simpa using hc
          · exact hdig d hd'

theorem leadingFractionAux_sub :
    ∀ (s : List Char) (x sc : Nat) (b : Bool),
      ∃ ds, s = ds ++ (leadingFractionAux x sc b s).2.2 ∧
        (∀ c ∈ ds, isDigitChar c = true) ∧
        ((leadingFractionAux x sc b s).2.2 = [] ∨
          ∃ c t, (leadingFractionAux x sc b s).2.2 = c :: t ∧ isDigitChar c = false) := by
  intro s
  induction s with
  | nil => intro x sc b; exact ⟨[], rfl, by simp, Or.inl rfl⟩
  | cons c t ih =>
    intro x sc b
    rw [leadingFractionAux_cons]
    by_cases hc : isDigitChar c = false
    · rw [if_pos hc]
      exact ⟨[], rfl, by simp, Or.inr ⟨c, t, rfl, hc⟩⟩
    · rw [if_neg hc]
      have hstep : ∀ x' sc' b',
          ∃ ds, c :: t = ds ++ (leadingFractionAux x' sc' b' t).2.2 ∧
            (∀ d ∈ ds, isDigitChar d = true) ∧
            ((leadingFractionAux x' sc' b' t).2.2 = [] ∨
              ∃ d u, (leadingFractionAux x' sc' b' t).2.2 = d :: u ∧ isDigitChar d = false) := by
        intro x' sc' b'
        obtain ⟨ds, hds, hdig, hrest⟩ := ih x' sc' b'
        refine ⟨c :: ds, by rw [List.cons_append, ← hds], ?_, hrest⟩
        intro d hd
        rcases List.mem_cons.mp hd with rfl | hd'
        · simpa using hc
        · exact hdig d hd'
      by_cases hb : b = true
      · rw [if_pos hb]; exact hstep x sc true
      · rw [if_neg hb]
        by_cases h1 : x > (2 ^ 63 - 1) / 10
        · rw [if_pos h1]; exact hstep x sc true
        · rw [if_neg h1]
          by_cases h2 : x * 10 + digitVal c > 2 ^ 63
          · rw [if_pos h2]; exact hstep x sc true
          · rw [if_neg h2]; exact hstep (x * 10 + digitVal c) (sc * 10) false

theorem leadingFractionAux_digits :
    ∀ (fd rest : List Char) (x sc : Nat), (∀ c ∈ fd, isDigitChar c = true) →
      (rest = [] ∨ ∃ c t, rest = c :: t ∧ isDigitChar c = false) →
      natOfDigitsAcc x fd ≤ (2 ^ 63 - 1) / 10 →
      leadingFractionAux x sc false (fd ++ rest) =
        (natOfDigitsAcc x fd, sc * 10 ^ fd.length, rest) := by
  intro fd
  induction fd with
  | nil =>
    intro rest x sc _ hrest _
    rcases hrest with rfl | ⟨c, t, rfl, hc⟩
    · show (x, sc, ([] : List Char)) =
        (natOfDigitsAcc x [], sc * 10 ^ ([] : List Char).length, ([] : List Char))
      simp only [List.length_nil, pow_zero, mul_one]
      rfl
    · show leadingFractionAux x sc false (c :: t) = _
      rw [leadingFractionAux_cons, if_pos hc]
      simp only [List.length_nil, pow_zero, mul_one]
      rfl
  | cons c fd' ih =>
    intro rest x sc hdig hrest hle
    have hc : isDigitChar c = true := hdig c (by simp)
    have hle2 : natOfDigitsAcc (x * 10 + digitVal c) fd' ≤ (2 ^ 63 - 1) / 10 := hle
    have hy : x * 10 + digitVal c ≤ (2 ^ 63 - 1) / 10 :=
      le_trans (natOfDigitsAcc_le fd' _) hle2
    show leadingFractionAux x sc false (c :: (fd' ++ rest)) = _
    rw [leadingFractionAux_cons]
    rw [if_neg (by simp [hc])]
    rw [if_neg (by simp : ¬ (false = true))]
    rw [if_neg (by omega : ¬ x > (2 ^ 63 - 1) / 10)]
    rw [if_neg (by
      have hlt : (2 ^ 63 - 1) / 10 < 2 ^ 63 := by decide
      omega)]
    rw [ih rest (x * 10 + digitVal c) (sc * 10)
      (fun d hd => hdig d (by simp [hd])) hrest hle2]
    simp only [List.length_cons]
    have hsc : sc * 10 * 10 ^ fd'.length = sc * 10 ^ (fd'.length + 1) := by
      rw [pow_succ]
      ring
    rw [hsc]
    rfl

theorem natOfDigitsAcc_lt (ds : List Char) :
    ∀ x, (∀ c ∈ ds, isDigitChar c = true) → natOfDigitsAcc x ds < (x + 1) * 10 ^ ds.length := by
  induction ds with
  | nil =>
    intro x _
    show natOfDigitsAcc x [] < (x + 1) * 10 ^ ([] : List Char).length
    simp only [List.length_nil, pow_zero, mul_one]
    exact Nat.lt_succ_self x
  | cons c t ih =>
    intro x hdig
    have hc : isDigitChar c = true := hdig c (by simp)
    have hd : digitVal c ≤ 9 := by
      unfold isDigitChar at hc
      unfold digitVal
      by_cases hin : 48 ≤ c.toNat ∧ c.toNat ≤ 57
      · omega
      · rw [if_neg hin] at hc; exact absurd hc (by simp)
    rw [natOfDigitsAcc_cons]
    calc natOfDigitsAcc (x * 10 + digitVal c) t
        < (x * 10 + digitVal c + 1) * 10 ^ t.length :=
          ih (x * 10 + digitVal c) (fun d hd2 => hdig d (by simp [hd2]))
      _ ≤ ((x + 1) * 10) * 10 ^ t.length := by
          have h9 : x * 10 + digitVal c + 1 ≤ (x + 1) * 10 := by omega
          exact Nat.mul_le_mul_right _ h9
      _ = (x + 1) * 10 ^ (t.length + 1) := by rw [pow_succ]; ring

/-! ## Lemmas: characters accepted by `ParseDuration` are never magnitudes -/

theorem digit_not_mag {c : Char} (h : isDigitChar c = true) : isMagAny c = false := by
  have hnot : ¬(c = 'Y' ∨ c = 'M' ∨ c = 'W' ∨ c = 'D' ∨ c = 'd') := by
    rintro (rfl | rfl | rfl | rfl | rfl) <;> exact absurd h (by decide)
  unfold isMagAny
  rw [if_neg hnot]

theorem dot_not_mag : isMagAny '.' = false := rfl

theorem unitMap_ne_nil {k : Nat} (h : unitMap [] = some k) : False := by
  have h0 : unitMap [] = none := rfl
  rw [h0] at h
  exact Option.noConfusion h

theorem unitMap_not_mag {u : List Char} {k : Nat} (h : unitMap u = some k) :
    ∀ c ∈ u, isMagAny c = false := by
  unfold unitMap at h
  split_ifs at h with h1 h2 h3 h4 h5 h6 h7 h8
  · subst h1; decide
  · subst h2; decide
  · subst h3; decide
  · subst h4; decide
  · subst h5; decide
  · subst h6; decide
  · subst h7; decide
  · subst h8; decide

theorem pdFrac_sub (s1 : List Char) :
    ∃ pre, s1 = pre ++ (pdFrac s1).2.2.1 ∧ ∀ c ∈ pre, isMagAny c = false := by
  by_cases hdot : s1.head? = some '.'
  · obtain ⟨t, rfl⟩ : ∃ t, s1 = '.' :: t := by
      cases s1 with
      | nil => exact absurd hdot (by simp)
      | cons a t =>
        have ha : a = '.' := by simpa using hdot
        exact ⟨t, by rw [ha]⟩
    obtain ⟨ds, hds, hdig, -⟩ := leadingFractionAux_sub t 0 1 false
    have hfr : (pdFrac ('.' :: t)).2.2.1 = (leadingFractionAux 0 1 false t).2.2 := by
      unfold pdFrac
      rw [if_pos (by simp : (('.' :: t).head? = some '.'))]
      rfl
    refine ⟨'.' :: ds, ?_, ?_⟩
    · rw [hfr]
      show '.' :: t = '.' :: (ds ++ (leadingFractionAux 0 1 false t).2.2)
      rw [← hds]
    · intro c hc
      rcases List.mem_cons.mp hc with rfl | hc'
      · exact dot_not_mag
      · exact digit_not_mag (hdig c hc')
  · have hfr : (pdFrac s1).2.2.1 = s1 := by
      unfold pdFrac
      rw [if_neg hdot]
    exact ⟨[], by rw [hfr]; exact (List.nil_append s1).symm, by simp⟩

theorem pdUnit_sub {v f sc v2 : Nat} {s2 rest : List Char}
    (h : pdUnit v f sc s2 = .ok (v2, rest)) :
    ∃ u, s2 = u ++ rest ∧ u ≠ [] ∧ ∀ c ∈ u, isMagAny c = false := by
  unfold pdUnit at h
  by_cases hi : unitLen s2 = 0
  · rw [if_pos hi] at h; exact absurd h (by simp)
  · rw [if_neg hi] at h
    cases hum : unitMap (s2.take (unitLen s2)) with
    | none => rw [hum] at h; exact absurd h (by simp)
    | some unit =>
      rw [hum] at h
      dsimp only [] at h
      by_cases hv : v > 2 ^ 63 / unit
      · rw [if_pos hv] at h; exact absurd h (by simp)
      · rw [if_neg hv] at h
        by_cases ho : f > 0 ∧ (if f > 0 then v * unit + f * unit / sc else v * unit) > 2 ^ 63
        · rw [if_pos ho] at h; exact absurd h (by simp)
        · rw [if_neg ho] at h
          injection h with h'
          injection h' with hv2 hrest
          refine ⟨s2.take (unitLen s2), ?_, ?_, unitMap_not_mag hum⟩
          · rw [← hrest, List.take_append_drop]
          · intro hnil
            rw [hnil] at hum
            exact unitMap_ne_nil hum

theorem pdSegment_sub {s : List Char} {v2 : Nat} {rest : List Char}
    (h : pdSegment s = .ok (v2, rest)) :
    ∃ pre, s = pre ++ rest ∧ pre ≠ [] ∧ ∀ c ∈ pre, isMagAny c = false := by
  cases s with
  | nil => exact absurd h (by simp [pdSegment])
  | cons c s' =>
    unfold pdSegment at h
    dsimp only [] at h
    by_cases hc0 : ¬(c = '.' ∨ isDigitChar c = true)
    · rw [if_pos hc0] at h; exact absurd h (by simp)
    · rw [if_neg hc0] at h
      cases hli : leadingIntAux 0 (c :: s') with
      | error e => rw [hli] at h; exact absurd h (by simp)
      | ok p =>
        obtain ⟨v, s1⟩ := p
        rw [hli] at h
        dsimp only [] at h
        by_cases hcond : s1.length = (c :: s').length ∧ (pdFrac s1).2.2.2 = false
        · rw [if_pos hcond] at h; exact absurd h (by simp)
        · rw [if_neg hcond] at h
          obtain ⟨u, hs2, hune, humag⟩ := pdUnit_sub h
          obtain ⟨ds, hds, hdig, -⟩ := leadingIntAux_sub _ _ _ _ hli
          obtain ⟨pre1, hpre1, hpremag⟩ := pdFrac_sub s1
          refine ⟨ds ++ pre1 ++ u, ?_, ?_, ?_⟩
          · rw [hds, hpre1, hs2]
            simp [List.append_assoc]
          · intro hnil
            simp only [List.append_eq_nil] at hnil
            exact hune hnil.2
          · intro x hx
            simp only [List.mem_append] at hx
            rcases hx with (hx | hx) | hx
            · exact digit_not_mag (hdig x hx)
            · exact hpremag x hx
            · exact humag x hx

theorem pdLoop_nil (fuel : Nat) (orig : List Char) (d : Nat) :
    pdLoop fuel orig [] d = .ok d := by
  cases fuel <;> rfl

theorem pdLoop_cons (fuel : Nat) (orig : List Char) (c : Char) (s' : List Char) (d : Nat) :
    pdLoop (fuel + 1) orig (c :: s') d =
      match pdSegment (c :: s') with
      | .error .invalid => .error (pdInvalid orig)
      | .error .missingUnit => .error (("time: missing unit in duration ".data) ++ goQuote orig)
      | .error (.unknownUnit u) =>
        .error (("time: unknown unit ".data) ++ goQuote u ++ (" in duration ".data) ++ goQuote orig)
      | .ok (v2, s3) =>
        if d + v2 > 2 ^ 63 then .error (pdInvalid orig)
        else pdLoop fuel orig s3 (d + v2) := rfl

theorem pdLoop_ok_no_mag :
    ∀ (fuel : Nat) (orig s : List Char) (d r : Nat), pdLoop fuel orig s d = .ok r →
      ∀ c ∈ s, isMagAny c = false := by
  intro fuel
  induction fuel with
  | zero =>
    intro orig s d r h c hc
    cases s with
    | nil => simp at hc
    | cons a t => exact absurd h (by simp [pdLoop])
  | succ fuel ih =>
    intro orig s d r h c hc
    cases s with
    | nil => simp at hc
    | cons a t =>
      rw [pdLoop_cons] at h
      cases hseg : pdSegment (a :: t) with
      | error k =>
        rw [hseg] at h
        cases k <;> (dsimp only [] at h; exact absurd h (by simp))
      | ok p =>
        obtain ⟨v2, s3⟩ := p
        rw [hseg] at h
        dsimp only [] at h
        by_cases hd : d + v2 > 2 ^ 63
        · rw [if_pos hd] at h; exact absurd h (by simp)
        · rw [if_neg hd] at h
          obtain ⟨pre, heq, -, hmag⟩ := pdSegment_sub hseg
          rw [heq] at hc
          rcases List.mem_append.mp hc with hcp | hcs
          · exact hmag c hcp
          · exact ih orig s3 (d + v2) r h c hcs

theorem pdTop_ok_no_mag {orig : List Char} {neg : Bool} {s : List Char} {dv : Int}
    (h : pdTop orig neg s = .ok dv) : ∀ c ∈ s, isMagAny c = false := by
  unfold pdTop at h
  by_cases h0 : s = ['0']
  · subst h0; decide
  · rw [if_neg h0] at h
    by_cases hnil : s = []
    · subst hnil; simp
    · rw [if_neg hnil] at h
      cases hl : pdLoop (s.length + 1) orig s 0 with
      | error e => rw [hl] at h; exact absurd h (by simp)
      | ok d => exact pdLoop_ok_no_mag _ _ _ _ _ hl

theorem ParseDuration_ok_no_mag {s : List Char} {dv : Int}
    (h : ParseDuration s = .ok dv) : containsMag s = false := by
  rw [containsMag, List.any_eq_false]
  intro x hx
  unfold ParseDuration at h
  by_cases hm : s.head? = some '-'
  · rw [if_pos hm] at h
    obtain ⟨t, rfl⟩ : ∃ t, s = '-' :: t := by
      cases s with
      | nil => exact absurd hm (by simp)
      | cons a t =>
        have ha : a = '-' := by simpa using hm
        exact ⟨t, by rw [ha]⟩
    rcases List.mem_cons.mp hx with rfl | hx'
    · decide
    · exact (by simpa using pdTop_ok_no_mag h x hx' : ¬isMagAny x = true)
  · rw [if_neg hm] at h
    by_cases hp : s.head? = some '+'
    · rw [if_pos hp] at h
      obtain ⟨t, rfl⟩ : ∃ t, s = '+' :: t := by
        cases s with
        | nil => exact absurd hp (by simp)
        | cons a t =>
          have ha : a = '+' := by simpa using hp
          exact ⟨t, by rw [ha]⟩
      rcases List.mem_cons.mp hx with rfl | hx'
      · decide
      · exact (by simpa using pdTop_ok_no_mag h x hx' : ¬isMagAny x = true)
    · rw [if_neg hp] at h
      exact (by simpa using pdTop_ok_no_mag h x hx : ¬isMagAny x = true)

theorem containsMag_PD_error {s : List Char} (h : containsMag s = true) :
    ∃ e, ParseDuration s = .error e := by
  cases hpd : ParseDuration s with
  | ok d => rw [ParseDuration_ok_no_mag hpd] at h; exact absurd h (by simp)
  | error e => exact ⟨e, rfl⟩

/-! ## Lemmas: magnitude registry -/

theorem Magset.firstSetFrom_cons (ms : Magset) (g : Char) (t : List Char) :
    ms.firstSetFrom (g :: t) =
      if (ms.entry g).isSet = true then some g else ms.firstSetFrom t := rfl

theorem Magset.firstSetFrom_ne_none {ms : Magset} {gs : List Char} {g : Char}
    (hg : g ∈ gs) (hset : (ms.entry g).isSet = true) :
    ∃ g', ms.firstSetFrom gs = some g' := by
  induction gs with
  | nil => simp at hg
  | cons a t ih =>
    rw [Magset.firstSetFrom_cons]
    by_cases ha : (ms.entry a).isSet = true
    · exact ⟨a, by rw [if_pos ha]⟩
    · rw [if_neg ha]
      rcases List.mem_cons.mp hg with rfl | hg'
      · exact absurd hset ha
      · exact ih hg'

theorem Magset.lookup_mem {ms : Magset} {r : Char}
    (h : r = 'Y' ∨ r = 'M' ∨ r = 'W' ∨ r = 'D') : ms.lookup r = some (ms.entry r) := by
  unfold Magset.lookup
  rw [if_pos h]

theorem Magset.set_d_eq_D (ms : Magset) (v : Int) : ms.set 'd' v = ms.set 'D' v := rfl

theorem Magset.setCanon_out_of_order {ms : Magset} {r : Char} (i : Nat)
    (hmem : r = 'Y' ∨ r = 'M' ∨ r = 'W' ∨ r = 'D')
    (hidx : magOrder.indexOf? r = some i)
    (hunset : (ms.entry r).isSet = false)
    {g : Char} (hg : g ∈ magOrder.drop i) (hgset : (ms.entry g).isSet = true) :
    ∀ v, ∃ e, ms.setCanon r v = .error e ∧ e.errorType = .magnOutOfOrderError := by
  intro v
  unfold Magset.setCanon
  rw [Magset.lookup_mem hmem]
  dsimp only []
  rw [hidx]
  dsimp only []
  rw [if_neg (by simp [hunset])]
  obtain ⟨g', hg'⟩ := Magset.firstSetFrom_ne_none hg hgset
  rw [hg']
  exact ⟨_, rfl, rfl⟩

/-! ## Lemmas: the scan loop of `ParseTimespan` -/

theorem runLoop_nil (st : LoopState) : runLoop [] st = .ok st := rfl

theorem runLoop_cons (r : Char) (rest : List Char) (st : LoopState) :
    runLoop (r :: rest) st =
      match ParseDuration (r :: rest) with
      | .ok dv => .ok { st with dur := dv, valid := true }
      | .error _ =>
        match coefficient.appendRune st.coef r with
        | .error e => .error e
        | .ok (true, c') => runLoop rest { st with coef := c' }
        | .ok (false, _) =>
          match coefficient.value st.coef st.sign with
          | .error e => .error e
          | .ok v =>
            match st.ms.set r v with
            | .error e => .error e
            | .ok ms' =>
              runLoop rest
                { st with ms := ms', sign := if v < 0 then -1 else 1, valid := true, coef := [] }
      := rfl

theorem containsMag_cons (r : Char) (rest : List Char) :
    containsMag (r :: rest) = (isMagAny r || containsMag rest) := rfl

theorem containsMag_append (a b : List Char) :
    containsMag (a ++ b) = (containsMag a || containsMag b) := by
  unfold containsMag
  exact List.any_append

theorem sign_not_mag {r : Char} (h : r = '-' ∨ r = '+') : isMagAny r = false := by
  rcases h with rfl | rfl <;> rfl

theorem appendRune_digit (c : List Char) {r : Char} (h : isDigitChar r = true) :
    coefficient.appendRune c r = .ok (true, c ++ [r]) := by
  unfold coefficient.appendRune
  rw [if_neg (digit_ne_sign h), if_pos h]

theorem appendRune_sign (c : List Char) {r : Char} (h : r = '-' ∨ r = '+')
    (hlen : ¬ c.length > 0) : coefficient.appendRune c r = .ok (true, c ++ [r]) := by
  unfold coefficient.appendRune
  rw [if_pos h, if_neg hlen]

theorem appendRune_reject (c : List Char) {r : Char} (h1 : ¬(r = '-' ∨ r = '+'))
    (h2 : isDigitChar r = false) : coefficient.appendRune c r = .ok (false, c) := by
  unfold coefficient.appendRune
  rw [if_neg h1, if_neg (by simp [h2])]

theorem appendRune_true_cases {c c' : List Char} {r : Char}
    (h : coefficient.appendRune c r = .ok (true, c')) :
    (r = '-' ∨ r = '+') ∨ isDigitChar r = true := by
  by_cases h1 : r = '-' ∨ r = '+'
  · exact Or.inl h1
  · by_cases h2 : isDigitChar r = true
    · exact Or.inr h2
    · rw [appendRune_reject c h1 (by simpa using h2)] at h
      injection h with h'
      injection h' with hb
      exact absurd hb (by simp)

theorem runLoop_duration {r : Char} {rest : List Char} {dv : Int} (st : LoopState)
    (h : ParseDuration (r :: rest) = .ok dv) :
    runLoop (r :: rest) st = .ok { st with dur := dv, valid := true } := by
  rw [runLoop_cons, h]

theorem runLoop_step_accept {r : Char} {rest : List Char} {st : LoopState} {c' : List Char}
    (hmag : containsMag (r :: rest) = true)
    (happ : coefficient.appendRune st.coef r = .ok (true, c')) :
    runLoop (r :: rest) st = runLoop rest { st with coef := c' } := by
  obtain ⟨e, hpd⟩ := containsMag_PD_error hmag
  rw [runLoop_cons, hpd]
  dsimp only []
  rw [happ]

theorem runLoop_commit {r : Char} {rest : List Char} {st : LoopState} {v : Int} {ms' : Magset}
    (hmag : containsMag (r :: rest) = true)
    (hrej : coefficient.appendRune st.coef r = .ok (false, st.coef))
    (hval : coefficient.value st.coef st.sign = .ok v)
    (hset : st.ms.set r v = .ok ms') :
    runLoop (r :: rest) st =
      runLoop rest
        { st with ms := ms', sign := if v < 0 then -1 else 1, valid := true, coef := [] } := by
  obtain ⟨e, hpd⟩ := containsMag_PD_error hmag
  rw [runLoop_cons, hpd]
  dsimp only []
  rw [hrej]
  dsimp only []
  rw [hval]
  dsimp only []
  rw [hset]

theorem runLoop_valid_mono :
    ∀ (s : List Char) (st st' : LoopState), st.valid = true → runLoop s st = .ok st' →
      st'.valid = true := by
  intro s
  induction s with
  | nil =>
    intro st st' hv h
    rw [runLoop_nil] at h
    injection h with h'
    rw [← h']
    exact hv
  | cons r rest ih =>
    intro st st' hv h
    rw [runLoop_cons] at h
    cases hpd : ParseDuration (r :: rest) with
    | ok dv =>
      rw [hpd] at h
      dsimp only [] at h
      injection h with h'
      rw [← h']
    | error e =>
      rw [hpd] at h
      dsimp only [] at h
      cases happ : coefficient.appendRune st.coef r with
      | error e2 => rw [happ] at h; exact absurd h (by simp)
      | ok p =>
        obtain ⟨b, c'⟩ := p
        rw [happ] at h
        cases b with
        | true =>
          dsimp only [] at h
          exact ih _ _ (show ({ st with coef := c' } : LoopState).valid = true from hv) h
        | false =>
          dsimp only [] at h
          cases hval : coefficient.value st.coef st.sign with
          | error e3 => rw [hval] at h; exact absurd h (by simp)
          | ok v =>
            rw [hval] at h
            dsimp only [] at h
            cases hset : st.ms.set r v with
            | error e4 => rw [hset] at h; exact absurd h (by simp)
            | ok ms' =>
              rw [hset] at h
              dsimp only [] at h
              exact ih _ _ rfl h

theorem runLoop_mag_valid :
    ∀ (s : List Char) (st st' : LoopState), containsMag s = true → runLoop s st = .ok st' →
      st'.valid = true := by
  intro s
  induction s with
  | nil => intro st st' hmag h; exact absurd hmag (by simp [containsMag])
  | cons r rest ih =>
    intro st st' hmag h
    rw [runLoop_cons] at h
    cases hpd : ParseDuration (r :: rest) with
    | ok dv =>
      rw [hpd] at h
      dsimp only [] at h
      injection h with h'
      rw [← h']
    | error e =>
      rw [hpd] at h
      dsimp only [] at h
      cases happ : coefficient.appendRune st.coef r with
      | error e2 => rw [happ] at h; exact absurd h (by simp)
      | ok p =>
        obtain ⟨b, c'⟩ := p
        rw [happ] at h
        cases b with
        | true =>
          dsimp only [] at h
          have hrmag : isMagAny r = false := by
            rcases appendRune_true_cases happ with hs | hd
            · exact sign_not_mag hs
            · exact digit_not_mag hd
          have hrest : containsMag rest = true := by
            rw [containsMag_cons, hrmag] at hmag
            simpa using hmag
          exact ih _ _ hrest h
        | false =>
          dsimp only [] at h
          cases hval : coefficient.value st.coef st.sign with
          | error e3 => rw [hval] at h; exact absurd h (by simp)
          | ok v =>
            rw [hval] at h
            dsimp only [] at h
            cases hset : st.ms.set r v with
            | error e4 => rw [hset] at h; exact absurd h (by simp)
            | ok ms' =>
              rw [hset] at h
              dsimp only [] at h
              exact runLoop_valid_mono _ _ _ rfl h

/-! ## Lemmas: digit-only suffixes and the driver epilogue -/

theorem leadingIntAux_alldigits :
    ∀ (s : List Char) (x : Nat), (∀ c ∈ s, isDigitChar c = true) →
      leadingIntAux x s = .error () ∨ ∃ v, leadingIntAux x s = .ok (v, []) := by
  intro s
  induction s with
  | nil => intro x _; exact Or.inr ⟨x, rfl⟩
  | cons c t ih =>
    intro x hdig
    have hc : isDigitChar c = true := hdig c (by simp)
    rw [leadingIntAux_cons]
    rw [if_neg (by simp [hc])]
    by_cases h1 : x > 2 ^ 63 / 10
    · rw [if_pos h1]; exact Or.inl rfl
    · rw [if_neg h1]
      by_cases h2 : x * 10 + digitVal c > 2 ^ 63
      · rw [if_pos h2]; exact Or.inl rfl
      · rw [if_neg h2]
        exact ih _ (fun d hd => hdig d (by simp [hd]))

theorem pdSegment_alldigits {c : Char} {t : List Char}
    (hdig : ∀ x ∈ c :: t, isDigitChar x = true) :
    ∃ k, pdSegment (c :: t) = .error k := by
  have hc : isDigitChar c = true := hdig c (by simp)
  unfold pdSegment
  dsimp only []
  rw [if_neg (by intro hh; exact hh (Or.inr hc))]
  rcases leadingIntAux_alldigits (c :: t) 0 hdig with herr | ⟨v, hok⟩
  · rw [herr]
    exact ⟨.invalid, rfl⟩
  · rw [hok]
    dsimp only []
    rw [if_neg (by
      intro hh
      have := hh.1
      simp at this)]
    refine ⟨.missingUnit, ?_⟩
    have hfr : pdFrac [] = (0, 1, ([] : List Char), false) := rfl
    rw [hfr]
    rfl

theorem pd_digits_zero {s : List Char} {d : Int}
    (hdig : ∀ c ∈ s, isDigitChar c = true) (h : ParseDuration s = .ok d) : d = 0 := by
  unfold ParseDuration at h
  cases s with
  | nil =>
    rw [if_neg (by simp), if_neg (by simp)] at h
    unfold pdTop at h
    rw [if_neg (by simp), if_pos rfl] at h
    exact absurd h (by simp)
  | cons c t =>
    have hc : isDigitChar c = true := hdig c (by simp)
    rw [if_neg (by
        intro hh
        have : c = '-' := by simpa using hh
        exact digit_ne_sign hc (Or.inl this)),
      if_neg (by
        intro hh
        have : c = '+' := by simpa using hh
        exact digit_ne_sign hc (Or.inr this))] at h
    unfold pdTop at h
    by_cases h0 : c :: t = ['0']
    · rw [if_pos h0] at h
      injection h with h'
      exact h'.symm
    · rw [if_neg h0, if_neg (by simp)] at h
      obtain ⟨k, hseg⟩ := pdSegment_alldigits hdig
      have hlp : pdLoop ((c :: t).length + 1) (c :: t) (c :: t) 0 =
          pdLoop (t.length + 1 + 1) (c :: t) (c :: t) 0 := by
        simp [List.length_cons]
      rw [hlp, pdLoop_cons, hseg] at h
      cases k <;> (dsimp only [] at h; exact absurd h (by simp))

theorem runLoop_trailing_digits :
    ∀ (ds : List Char) (st : LoopState), (∀ c ∈ ds, isDigitChar c = true) → st.valid = true →
      st.dur = 0 →
      ∃ st', runLoop ds st = .ok st' ∧ st'.ms = st.ms ∧ st'.dur = 0 ∧ st'.valid = true := by
  intro ds
  induction ds with
  | nil =>
    intro st _ hv hd
    exact ⟨st, runLoop_nil st, rfl, hd, hv⟩
  | cons c t ih =>
    intro st hdig hv hd
    have hc : isDigitChar c = true := hdig c (by simp)
    cases hpd : ParseDuration (c :: t) with
    | ok dv =>
      have hdv : dv = 0 := pd_digits_zero hdig hpd
      refine ⟨{ st with dur := dv, valid := true }, runLoop_duration st hpd, rfl, hdv, rfl⟩
    | error e =>
      rw [runLoop_cons, hpd]
      dsimp only []
      rw [appendRune_digit st.coef hc]
      dsimp only []
      obtain ⟨st', hrl, hms, hdur, hval⟩ :=
        ih { st with coef := st.coef ++ [c] } (fun d hd2 => hdig d (by simp [hd2])) hv hd
      exact ⟨st', hrl, hms, hdur, hval⟩

/-! ## Lemmas: `ParseTimespan` structure -/

theorem finishParse_valid {s : List Char} {st : LoopState} (h : st.valid = true) :
    finishParse s st = .ok
      { Years := st.ms.get 'Y', Months := st.ms.get 'M',
        Days := wrap64 (st.ms.get 'D' + wrap64 (st.ms.get 'W' * 7)), Duration := st.dur } := by
  unfold finishParse
  rw [if_neg (by simp [h])]

theorem finishParse_invalid {s : List Char} {st : LoopState} (h : st.valid = false) :
    finishParse s st =
      .error (.genericErr (("no value derived for Timespan ".data) ++ goQuote s)) := by
  unfold finishParse
  rw [if_pos h]

theorem ParseTimespan_mag {s : List Char} (h : containsMag s = true) :
    ParseTimespan s =
      match runLoop s initState with
      | .error e => .error (.tsErr (e.withTimespan s))
      | .ok st => finishParse s st := by
  unfold ParseTimespan
  rw [if_neg (by simp [h])]

theorem ParseTimespan_nomag {s : List Char} (h : containsMag s = false) :
    ParseTimespan s =
      match ParseDuration s with
      | .error e => .error (.tsErr (timespanError .badDurationErr e))
      | .ok dv => .ok { Duration := dv } := by
  unfold ParseTimespan
  rw [if_pos h]

/-! ## Claim theorems -/

/--
C2: an explicit leading `-` carries forward to later implicitly-signed
coefficients (`"-1Y2M"` gives Years = -1, Months = -2) while an explicit `+`
on the current coefficient overrides the carried sign (`"-1Y+2M"` gives
Years = -1, Months = +2); in general `coefficient.value` negates a positive
parsed value exactly when the sign override is negative and the coefficient
text does not begin with `'+'`.
-/
theorem claim_C2_sign_carry :
    ParseTimespan ("-1Y2M".data) = .ok { Years := -1, Months := -2 } ∧
    ParseTimespan ("-1Y+2M".data) = .ok { Years := -1, Months := 2 } ∧
    ∀ (c : List Char) (sign cv : Int), atoi c = .ok cv → 1 ≤ c.length →
      coefficient.value c sign =
        .ok (if sign < 0 ∧ cv > 0 ∧ c.head? ≠ some '+' then -cv else cv) := by
  refine ⟨by decide, by decide, ?_⟩
  intro c sign cv hatoi hlen
  unfold coefficient.value
  rw [if_neg (by omega)]
  rw [hatoi]
  show (if sign < 0 ∧ cv > 0 ∧ c.head? ≠ some '+' then Except.ok (-cv) else Except.ok cv) = _
  by_cases hcond : sign < 0 ∧ cv > 0 ∧ c.head? ≠ some '+'
  · rw [if_pos hcond, if_pos hcond]
  · rw [if_neg hcond, if_neg hcond]

/-- Witness for C2's general clause at the coefficient "2" with carry -1. -/
theorem claim_C2_sign_carry_witness :
    coefficient.value ("2".data) (-1) =
      .ok (if (-1 : Int) < 0 ∧ (2 : Int) > 0 ∧ ("2".data).head? ≠ some '+' then -2 else 2) :=
  claim_C2_sign_carry.2.2 ("2".data) (-1) 2 (by decide) (by decide)

/--
C3 counterexample: the claim "Days equals the registry's Day value plus 7
times the Week value" fails when the product overflows a 64-bit int —
parsing "9223372036854775807W" succeeds with the wrapped Days value
`2^63 - 7`, not `7 * (2^63 - 1)`.
-/
theorem claim_C3_counterexample :
    ParseTimespan ("9223372036854775807W".data) = .ok { Days := 9223372036854775801 } ∧
    (9223372036854775801 : Int) ≠ 0 + 9223372036854775807 * 7 := by
  refine ⟨by decide, by decide⟩

/--
C3 (amended): on a successful parse the Days field equals the 64-bit wrap of
the registry's Day value plus 7 times its Week value — equal to the plain
sum whenever that sum is within the `int64` range — weeks are never stored
separately, lowercase `'d'` is normalized to the Day category, and the
concrete examples hold: "4W1d" gives Days = 29 and "4W-1d" gives Days = 27.
-/
theorem claim_C3_week_folding :
    ParseTimespan ("4W1d".data) = .ok { Days := 29 } ∧
    ParseTimespan ("4W-1d".data) = .ok { Days := 27 } ∧
    (∀ (ms : Magset) (v : Int), ms.set 'd' v = ms.set 'D' v) ∧
    ∀ (s : List Char) (st : LoopState) (ts : Timespan), finishParse s st = .ok ts →
      ts.Days = wrap64 (st.ms.get 'D' + st.ms.get 'W' * 7) ∧
      (i64min ≤ st.ms.get 'D' + st.ms.get 'W' * 7 →
        st.ms.get 'D' + st.ms.get 'W' * 7 ≤ i64max →
        ts.Days = st.ms.get 'D' + st.ms.get 'W' * 7) := by
  refine ⟨by decide, by decide, fun ms v => Magset.set_d_eq_D ms v, ?_⟩
  intro s st ts h
  by_cases hv : st.valid = true
  · rw [finishParse_valid hv] at h
    injection h with h'
    subst h'
    refine ⟨wrap64_add_wrapR _ _, ?_⟩
    intro hlo hhi
    show wrap64 (st.ms.get 'D' + wrap64 (st.ms.get 'W' * 7)) = _
    rw [wrap64_add_wrapR]
    exact wrap64_eq_self hlo hhi
  · have hv' : st.valid = false := by simpa using hv
    rw [finishParse_invalid hv'] at h
    exact absurd h (by simp)

/-- Witness for C3's assembly clause at a concrete loop state. -/
theorem claim_C3_week_folding_witness :
    ({ Days := 29 } : Timespan).Days = wrap64 (st41.ms.get 'D' + st41.ms.get 'W' * 7) ∧
    ({ Days := 29 } : Timespan).Days = st41.ms.get 'D' + st41.ms.get 'W' * 7 :=
  ⟨(claim_C3_week_folding.2.2.2 [] st41 { Days := 29 } (by decide)).1,
    (claim_C3_week_folding.2.2.2 [] st41 { Days := 29 } (by decide)).2 (by decide) (by decide)⟩

/--
C4: for every pair of categories c1 strictly before c2 in the canonical
order Y, M, W, D, an input stating c2 before c1 fails with the magnitude
out-of-order kind; and the registry's ordering check scans every category
from the current one's position to the end of the order — any set category
strictly after the current (unset) one makes `set` fail with that kind,
whatever the rest of the registry looks like.
-/
theorem claim_C4_out_of_order :
    (∀ p ∈ magPairs,
      resultKind (ParseTimespan (['1', p.2, '2', p.1])) = some .magnOutOfOrderError) ∧
    ∀ (ms : Magset) (c1 c2 : Char), (c1, c2) ∈ magPairs →
      (ms.entry c1).isSet = false → (ms.entry c2).isSet = true →
      ∀ v, ∃ e, ms.set c1 v = .error e ∧ e.errorType = .magnOutOfOrderError := by
  refine ⟨by decide, ?_⟩
  intro ms c1 c2 hmem h1 h2 v
  simp only [magPairs, List.mem_cons, List.not_mem_nil, or_false] at hmem
  rcases hmem with h | h | h | h | h | h
  · obtain ⟨rfl, rfl⟩ := Prod.mk.inj h
    exact Magset.setCanon_out_of_order 0 (by decide) (by decide) h1 (by decide) h2 v
  · obtain ⟨rfl, rfl⟩ := Prod.mk.inj h
    exact Magset.setCanon_out_of_order 0 (by decide) (by decide) h1 (by decide) h2 v
  · obtain ⟨rfl, rfl⟩ := Prod.mk.inj h
    exact Magset.setCanon_out_of_order 0 (by decide) (by decide) h1 (by decide) h2 v
  · obtain ⟨rfl, rfl⟩ := Prod.mk.inj h
    exact Magset.setCanon_out_of_order 1 (by decide) (by decide) h1 (by decide) h2 v
  · obtain ⟨rfl, rfl⟩ := Prod.mk.inj h
    exact Magset.setCanon_out_of_order 1 (by decide) (by decide) h1 (by decide) h2 v
  · obtain ⟨rfl, rfl⟩ := Prod.mk.inj h
    exact Magset.setCanon_out_of_order 2 (by decide) (by decide) h1 (by decide) h2 v

/-- Witness for C4's registry clause: Week already set, then Year offered. -/
theorem claim_C4_out_of_order_witness :
    ∃ e, (st41.ms.set 'Y' 5 = .error e) ∧ e.errorType = .magnOutOfOrderError :=
  claim_C4_out_of_order.2 st41.ms 'Y' 'W' (by decide) (by decide) (by decide) 5

/--
C5: the four malformed inputs fail with exactly the expected error kinds —
"Y" with missing coefficient, "1h2D" with unrecognized magnitude, "3W2W"
with magnitude restated (the message shows the newly offered value 2W and
the previously stored value 3W), and "4W1-D" with misplaced sign.
-/
theorem claim_C5_error_kinds :
    ParseTimespan ("Y".data) =
      .error (.tsErr ((timespanError .missingCoefErr
        ("missing coefficient".data)).withTimespan ("Y".data))) ∧
    resultKind (ParseTimespan ("1h2D".data)) = some .unrecognizedMagErr ∧
    ParseTimespan ("3W2W".data) =
      .error (.tsErr ((timespanError .magnRestatedErr
        ("magnitude W restated (current:2W previous:3W)".data)).withTimespan ("3W2W".data))) ∧
    resultKind (ParseTimespan ("4W1-D".data)) = some .misplacedSignErr := by
  refine ⟨by decide, by decide, by decide, by decide⟩

/--
C6: input containing none of the magnitude letters short-circuits into the
duration branch — whenever `time.ParseDuration` accepts it, `ParseTimespan`
returns zero calendar fields and exactly the parsed duration; concretely
"1h30m" gives 90 minutes and "-1h30m" its negation.
-/
theorem claim_C6_pure_duration :
    (∀ (s : List Char) (dv : Int), containsMag s = false → ParseDuration s = .ok dv →
      ParseTimespan s = .ok { Years := 0, Months := 0, Days := 0, Duration := dv }) ∧
    ParseTimespan ("1h30m".data) = .ok { Duration := 5400000000000 } ∧
    ParseTimespan ("-1h30m".data) = .ok { Duration := -5400000000000 } := by
  refine ⟨?_, by decide, by decide⟩
  intro s dv hmag hpd
  rw [ParseTimespan_nomag hmag, hpd]

/-- Witness for C6's general clause at the bare duration "90m". -/
theorem claim_C6_pure_duration_witness :
    ParseTimespan ("90m".data) =
      .ok { Years := 0, Months := 0, Days := 0, Duration := 5400000000000 } :=
  claim_C6_pure_duration.1 ("90m".data) 5400000000000 (by decide) (by decide)

/--
C7 counterexample: a failure from the short-circuit duration branch is a
typed error of kind bad-duration, but its input annotation (`tsString`) is
left empty rather than set to the original input — `withTimespan` is never
applied on that path.
-/
theorem claim_C7_counterexample :
    ParseTimespan ("x".data) =
      .error (.tsErr (timespanError .badDurationErr
        (("time: invalid duration ".data) ++ goQuote ("x".data)))) ∧
    (timespanError .badDurationErr
      (("time: invalid duration ".data) ++ goQuote ("x".data))).tsString ≠ ("x".data) := by
  refine ⟨by decide, by decide⟩

/--
C7 (amended): every failing `ParseTimespan` call surfaces a typed error
whose kind is programmatically distinguishable; failures raised during the
magnitude scan are annotated with the original input string, while the
duration-branch failure carries kind bad-duration with an empty annotation.
The untyped no-value error is never surfaced.
-/
theorem claim_C7_typed_errors :
    ∀ (s : List Char) (pe : ParseErr), ParseTimespan s = .error pe →
      ∃ e, pe = .tsErr e ∧
        (e.tsString = s ∨ (e.errorType = .badDurationErr ∧ e.tsString = [])) := by
  intro s pe h
  by_cases hm : containsMag s = false
  · rw [ParseTimespan_nomag hm] at h
    cases hpd : ParseDuration s with
    | error e =>
      rw [hpd] at h
      dsimp only [] at h
      injection h with h'
      exact ⟨timespanError .badDurationErr e, h'.symm, Or.inr ⟨rfl, rfl⟩⟩
    | ok dv =>
      rw [hpd] at h
      dsimp only [] at h
      exact absurd h (by simp)
  · have hmt : containsMag s = true := by simpa using hm
    rw [ParseTimespan_mag hmt] at h
    cases hrl : runLoop s initState with
    | error e =>
      rw [hrl] at h
      dsimp only [] at h
      injection h with h'
      exact ⟨e.withTimespan s, h'.symm, Or.inl rfl⟩
    | ok st =>
      rw [hrl] at h
      dsimp only [] at h
      have hv : st.valid = true := runLoop_mag_valid s initState st hmt hrl
      rw [finishParse_valid hv] at h
      exact absurd h (by simp)

/-- Witness for C7's amended clause at the failing input "Y". -/
theorem claim_C7_typed_errors_witness :
    ∃ e, (ParseErr.tsErr ((timespanError .missingCoefErr
        ("missing coefficient".data)).withTimespan ("Y".data))) = .tsErr e ∧
      (e.tsString = ("Y".data) ∨ (e.errorType = .badDurationErr ∧ e.tsString = [])) :=
  claim_C7_typed_errors ("Y".data)
    (.tsErr ((timespanError .missingCoefErr ("missing coefficient".data)).withTimespan ("Y".data)))
    (by decide)

/--
C8 counterexample: empty input never reaches the scan — it fails in the
short-circuit duration branch with a typed bad-duration error, not with the
generic "no value derived" error the claim expects.
-/
theorem claim_C8_counterexample :
    ParseTimespan [] = .error (.tsErr (timespanError .badDurationErr (pdInvalid []))) ∧
    ∀ msg, ParseTimespan [] ≠ .error (.genericErr msg) := by
  have h0 : ParseTimespan [] = .error (.tsErr (timespanError .badDurationErr (pdInvalid []))) :=
    by decide
  refine ⟨h0, ?_⟩
  intro msg h
  rw [h0] at h
  injection h with h'
  exact ParseErr.noConfusion h'

/--
C8 (amended): if the scan completes without ever marking the parse valid the
driver fails with the generic "no value derived" error; however, empty input
(like any input without a magnitude letter) never reaches the scan and fails
with the bad-duration kind instead, and an input that does reach the scan
can never complete it invalid.
-/
theorem claim_C8_no_value :
    (∀ (s : List Char) (st : LoopState), st.valid = false →
      finishParse s st =
        .error (.genericErr (("no value derived for Timespan ".data) ++ goQuote s))) ∧
    (∀ (s : List Char) (st st' : LoopState), containsMag s = true → runLoop s st = .ok st' →
      st'.valid = true) ∧
    resultKind (ParseTimespan []) = some .badDurationErr := by
  exact ⟨fun s st hv => finishParse_invalid hv, runLoop_mag_valid, by decide⟩

/-- Witness for C8's amended clause at the initial (invalid) state. -/
theorem claim_C8_no_value_witness :
    finishParse ("D".data) initState =
      .error (.genericErr (("no value derived for Timespan ".data) ++ goQuote ("D".data))) :=
  claim_C8_no_value.1 ("D".data) initState rfl

/--
C9 (implicit): digits (or one sign) accumulated at end of input without a
terminating magnitude letter or duration match are silently discarded when a
valid period was already committed — a trailing all-digit suffix leaves the
registry, duration and validity unchanged; concretely "1Y2" parses to
Years = 1 even though the documented grammar rejects "1Y2".
-/
theorem claim_C9_trailing_digits :
    (∀ (ds : List Char) (st : LoopState), (∀ c ∈ ds, isDigitChar c = true) →
      st.valid = true → st.dur = 0 →
      ∃ st', runLoop ds st = .ok st' ∧ st'.ms = st.ms ∧ st'.dur = 0 ∧ st'.valid = true) ∧
    ParseTimespan ("1Y2".data) = .ok { Years := 1 } ∧
    ParseTimespan ("1Y-".data) = .ok { Years := 1 } ∧
    grammarAccepts ("1Y2".data) = false := by
  exact ⟨runLoop_trailing_digits, by decide, by decide, by decide⟩

/-- Witness for C9's trailing-digit clause at suffix "2". -/
theorem claim_C9_trailing_digits_witness :
    ∃ st', runLoop ("2".data) { initState with valid := true } = .ok st' ∧
      st'.ms = ({ initState with valid := true } : LoopState).ms ∧ st'.dur = 0 ∧
      st'.valid = true :=
  claim_C9_trailing_digits.1 ("2".data) { initState with valid := true }
    (by decide) rfl rfl

/--
C10 (implicit): the running sign state does not affect the duration branch —
whatever the state (and its sign), a suffix accepted by `time.ParseDuration`
is recorded exactly as parsed; concretely "-1Y1h" yields Years = -1 but
Duration = +1 hour.
-/
theorem claim_C10_duration_ignores_sign :
    (∀ (st : LoopState) (r : Char) (rest : List Char) (dv : Int),
      ParseDuration (r :: rest) = .ok dv →
      runLoop (r :: rest) st = .ok { st with dur := dv, valid := true }) ∧
    ParseTimespan ("-1Y1h".data) = .ok { Years := -1, Duration := 3600000000000 } := by
  exact ⟨fun st r rest dv h => runLoop_duration st h, by decide⟩

/-- Witness for C10's clause with a negative carried sign and suffix "1h". -/
theorem claim_C10_duration_ignores_sign_witness :
    runLoop ('1' :: ("h".data)) { initState with sign := -1 } =
      .ok
        { ({ initState with sign := -1 } : LoopState) with dur := 3600000000000, valid := true } :=
  claim_C10_duration_ignores_sign.1 { initState with sign := -1 } '1' ("h".data)
    3600000000000 (by decide)

/-! ## Lemmas: `fmtFrac` output characterization -/

theorem padDigits_length : ∀ (p n : Nat), (padDigits p n).length = p := by
  intro p
  induction p with
  | zero => intro n; rfl
  | succ p ih =>
    intro n
    show (padDigits p (n / 10) ++ [digitChar (n % 10)]).length = p + 1
    rw [List.length_append, ih (n / 10)]
    rfl

theorem padDigits_digits : ∀ (p n : Nat), ∀ c ∈ padDigits p n, isDigitChar c = true := by
  intro p
  induction p with
  | zero => intro n c hc; simp [padDigits] at hc
  | succ p ih =>
    intro n c hc
    rcases List.mem_append.mp hc with hc' | hc'
    · exact ih (n / 10) c hc'
    · rw [List.mem_singleton.mp hc']
      exact isDigitChar_digitChar (Nat.mod_lt n (by norm_num))

theorem mod_pow_succ_digit (n p : Nat) :
    n % 10 ^ (p + 1) = (n / 10 % 10 ^ p) * 10 + n % 10 := by
  rw [show 10 ^ (p + 1) = 10 * 10 ^ p from pow_succ' 10 p, Nat.mod_mul]
  ring

theorem natOfDigitsAcc_padDigits :
    ∀ (p n a : Nat), natOfDigitsAcc a (padDigits p n) = a * 10 ^ p + n % 10 ^ p := by
  intro p
  induction p with
  | zero =>
    intro n a
    show a = a * 10 ^ 0 + n % 10 ^ 0
    rw [pow_zero, Nat.mul_one, Nat.mod_one, Nat.add_zero]
  | succ p ih =>
    intro n a
    show natOfDigitsAcc a (padDigits p (n / 10) ++ [digitChar (n % 10)]) = _
    rw [natOfDigitsAcc_append, ih (n / 10) a,
      digitVal_digitChar (Nat.mod_lt n (by norm_num)), mod_pow_succ_digit]
    rw [pow_succ]
    ring

theorem fmtFracAux_succ (p v : Nat) (pr : Bool) (acc : List Char) :
    fmtFracAux (p + 1) v pr acc =
      fmtFracAux p (v / 10) (pr || decide (v % 10 ≠ 0))
        (if (pr || decide (v % 10 ≠ 0)) = true then digitChar (v % 10) :: acc else acc) := rfl

theorem fmtFracAux_true :
    ∀ (p v : Nat) (acc : List Char),
      fmtFracAux p v true acc = ('.' :: (padDigits p v ++ acc), v / 10 ^ p) := by
  intro p
  induction p with
  | zero =>
    intro v acc
    show ('.' :: acc, v) = ('.' :: ([] ++ acc), v / 10 ^ 0)
    rw [pow_zero, Nat.div_one, List.nil_append]
  | succ p ih =>
    intro v acc
    rw [fmtFracAux_succ]
    rw [show (true || decide (v % 10 ≠ 0)) = true from Bool.true_or _]
    rw [if_pos rfl]
    rw [ih (v / 10) (digitChar (v % 10) :: acc)]
    have hd : v / 10 / 10 ^ p = v / 10 ^ (p + 1) := by
      rw [Nat.div_div_eq_div_mul, ← pow_succ']
    rw [hd]
    have hl : padDigits p (v / 10) ++ digitChar (v % 10) :: acc =
        padDigits (p + 1) v ++ acc := by
      show _ = (padDigits p (v / 10) ++ [digitChar (v % 10)]) ++ acc
      rw [List.append_assoc]
      rfl
    rw [hl]

theorem fmtFracAux_false :
    ∀ (p v : Nat) (acc : List Char),
      (v % 10 ^ p = 0 → fmtFracAux p v false acc = (acc, v / 10 ^ p)) ∧
      (v % 10 ^ p ≠ 0 →
        ∃ fd, fmtFracAux p v false acc = ('.' :: (fd ++ acc), v / 10 ^ p) ∧
          (∀ c ∈ fd, isDigitChar c = true) ∧ 1 ≤ fd.length ∧ fd.length ≤ p ∧
          natOfDigits fd * 10 ^ (p - fd.length) = v % 10 ^ p ∧
          0 < natOfDigits fd ∧ natOfDigits fd < 10 ^ fd.length) := by
  intro p
  induction p with
  | zero =>
    intro v acc
    refine ⟨fun _ => ?_, fun h => absurd (Nat.mod_one v) h⟩
    show (acc, v) = (acc, v / 10 ^ 0)
    rw [pow_zero, Nat.div_one]
  | succ p ih =>
    intro v acc
    by_cases hdigit : v % 10 = 0
    · have hstep : fmtFracAux (p + 1) v false acc = fmtFracAux p (v / 10) false acc := by
        rw [fmtFracAux_succ]
        rw [show (false || decide (v % 10 ≠ 0)) = false by simp [hdigit]]
        rw [if_neg (by simp)]
      have hmod : v % 10 ^ (p + 1) = (v / 10 % 10 ^ p) * 10 := by
        rw [mod_pow_succ_digit, hdigit]
        omega
      have hdiv : v / 10 / 10 ^ p = v / 10 ^ (p + 1) := by
        rw [Nat.div_div_eq_div_mul, ← pow_succ']
      constructor
      · intro h0
        have h0' : v / 10 % 10 ^ p = 0 := by rw [hmod] at h0; omega
        rw [hstep, (ih (v / 10) acc).1 h0', hdiv]
      · intro h0
        have h0' : v / 10 % 10 ^ p ≠ 0 := by rw [hmod] at h0; omega
        obtain ⟨fd, heq, hdig, h1, h2, hval, hpos, hlt⟩ := (ih (v / 10) acc).2 h0'
        refine ⟨fd, by rw [hstep, heq, hdiv], hdig, h1, by omega, ?_, hpos, hlt⟩
        have hexp : p + 1 - fd.length = (p - fd.length) + 1 := by omega
        rw [hexp, pow_succ, ← Nat.mul_assoc, hval, hmod]
    · have hne : v % 10 ^ (p + 1) ≠ 0 := by
        intro hh
        apply hdigit
        rw [← Nat.mod_mod_of_dvd v (dvd_pow_self 10 (Nat.succ_ne_zero p)), hh]
      constructor
      · intro h0
        exact absurd h0 hne
      · intro _
        have hstep : fmtFracAux (p + 1) v false acc =
            fmtFracAux p (v / 10) true (digitChar (v % 10) :: acc) := by
          rw [fmtFracAux_succ]
          rw [show (false || decide (v % 10 ≠ 0)) = true by simp [hdigit]]
          rw [if_pos rfl]
        have hdiv : v / 10 / 10 ^ p = v / 10 ^ (p + 1) := by
          rw [Nat.div_div_eq_div_mul, ← pow_succ']
        refine ⟨padDigits (p + 1) v, ?_, padDigits_digits _ _, ?_, ?_, ?_, ?_, ?_⟩
        · rw [hstep, fmtFracAux_true, hdiv]
          have hl : padDigits p (v / 10) ++ digitChar (v % 10) :: acc =
              padDigits (p + 1) v ++ acc := by
            show _ = (padDigits p (v / 10) ++ [digitChar (v % 10)]) ++ acc
            rw [List.append_assoc]
            rfl
          rw [hl]
        · rw [padDigits_length]; omega
        · rw [padDigits_length]
        · rw [padDigits_length, Nat.sub_self, pow_zero, Nat.mul_one]
          unfold natOfDigits
          rw [natOfDigitsAcc_padDigits]
          ring
        · unfold natOfDigits
          rw [natOfDigitsAcc_padDigits]
          simpa using Nat.pos_of_ne_zero hne
        · rw [padDigits_length]
          unfold natOfDigits
          rw [natOfDigitsAcc_padDigits]
          simpa using Nat.mod_lt v (Nat.pow_pos (by norm_num))

theorem fmtFrac_zero {v prec : Nat} (h : v % 10 ^ prec = 0) :
    fmtFrac v prec = ([], v / 10 ^ prec) := by
  unfold fmtFrac
  rw [(fmtFracAux_false prec v []).1 h]

theorem fmtFrac_pos {v prec : Nat} (h : v % 10 ^ prec ≠ 0) :
    ∃ fd, fmtFrac v prec = ('.' :: fd, v / 10 ^ prec) ∧
      (∀ c ∈ fd, isDigitChar c = true) ∧ 1 ≤ fd.length ∧ fd.length ≤ prec ∧
      natOfDigits fd * 10 ^ (prec - fd.length) = v % 10 ^ prec ∧
      0 < natOfDigits fd ∧ natOfDigits fd < 10 ^ fd.length := by
  obtain ⟨fd, heq, rest⟩ := (fmtFracAux_false prec v []).2 h
  exact ⟨fd, by rw [fmtFrac, heq, List.append_nil], rest⟩

/-! ## Lemmas: evaluating `ParseDuration` on rendered duration strings -/

theorem append_ne_nil_left {A B : List Char} (h : A ≠ []) : A ++ B ≠ [] := by
  cases A with
  | nil => exact absurd rfl h
  | cons c t => simp

theorem mul_pow_div_pow (f k p : Nat) (h : k ≤ p) :
    f * 10 ^ p / 10 ^ k = f * 10 ^ (p - k) := by
  have hk : 0 < 10 ^ k := Nat.pow_pos (by norm_num)
  have hp : 10 ^ p = 10 ^ (p - k) * 10 ^ k := by
    rw [← pow_add, Nat.sub_add_cancel h]
  rw [hp, ← Nat.mul_assoc]
  exact Nat.mul_div_cancel _ hk

theorem fmtFrac_val (v p : Nat) : (fmtFrac v p).2 = v / 10 ^ p := by
  by_cases h : v % 10 ^ p = 0
  · rw [fmtFrac_zero h]
  · obtain ⟨fd, heq, -, -, -, -, -, -⟩ := fmtFrac_pos h
    rw [heq]

theorem fmtFrac_chars (v p : Nat) :
    ∀ c ∈ (fmtFrac v p).1, c = '.' ∨ isDigitChar c = true := by
  by_cases h : v % 10 ^ p = 0
  · rw [fmtFrac_zero h]
    intro c hc
    exact absurd hc (by simp)
  · obtain ⟨fd, heq, hdig, -, -, -, -, -⟩ := fmtFrac_pos h
    rw [heq]
    intro c hc
    have hc' : c ∈ '.' :: fd := by simpa using hc
    rcases List.mem_cons.mp hc' with rfl | h'
    · exact Or.inl rfl
    · exact Or.inr (hdig c h')

theorem not_mag_dotdigit {c : Char} (h : c = '.' ∨ isDigitChar c = true) :
    isMagAny c = false := by
  rcases h with rfl | h
  · exact dot_not_mag
  · exact digit_not_mag h

theorem head_digit_append (A B : List Char) (hA : A ≠ [])
    (hd : ∀ c ∈ A, isDigitChar c = true) :
    ∃ c t, A ++ B = c :: t ∧ isDigitChar c = true := by
  cases A with
  | nil => exact absurd rfl hA
  | cons c t => exact ⟨c, t ++ B, rfl, hd c (by simp)⟩

theorem ucrest_stop {uc rest : List Char} (hne : uc ≠ [])
    (huc : ∀ c ∈ uc, (c = '.' ∨ isDigitChar c = true) → False) :
    ∃ c t, uc ++ rest = c :: t ∧ isDigitChar c = false ∧ c ≠ '.' := by
  cases uc with
  | nil => exact absurd rfl hne
  | cons c t =>
    have h := huc c (by simp)
    refine ⟨c, t ++ rest, rfl, ?_, fun hdot => h (Or.inl hdot)⟩
    cases hdc : isDigitChar c with
    | false => rfl
    | true => exact absurd (Or.inr hdc) h

theorem containsMag_false_of {s : List Char} (h : ∀ c ∈ s, isMagAny c = false) :
    containsMag s = false := by
  unfold containsMag
  rw [List.any_eq_false]
  intro x hx
  rw [h x hx]
  simp

theorem containsMag_has {s : List Char} {c : Char} (hc : c ∈ s) (h : isMagAny c = true) :
    containsMag s = true := by
  unfold containsMag
  rw [List.any_eq_true]
  exact ⟨c, hc, h⟩

theorem leadingIntAux_natStr {v0 : Nat} {X : List Char}
    (hX : X = [] ∨ ∃ c t, X = c :: t ∧ isDigitChar c = false) (hv : v0 ≤ 2 ^ 63) :
    leadingIntAux 0 (natStr v0 ++ X) = .ok (v0, X) := by
  have hb : natOfDigitsAcc 0 (natStr v0) = v0 := natOfDigits_natStr v0
  have h := leadingIntAux_digits (natStr v0) X 0 (fun c hc => natStr_all_digits hc) hX
    (by rw [hb]; exact hv)
  rw [hb] at h
  exact h

theorem unitLen_cons (c : Char) (t : List Char) :
    unitLen (c :: t) = if c = '.' ∨ isDigitChar c = true then 0 else unitLen t + 1 := rfl

theorem unitLen_append :
    ∀ (uc : List Char), (∀ c ∈ uc, (c = '.' ∨ isDigitChar c = true) → False) →
      ∀ rest, (rest = [] ∨ ∃ c t, rest = c :: t ∧ (c = '.' ∨ isDigitChar c = true)) →
      unitLen (uc ++ rest) = uc.length := by
  intro uc
  induction uc with
  | nil =>
    intro _ rest hrest
    rcases hrest with rfl | ⟨c, t, rfl, hc⟩
    · rfl
    · show unitLen (c :: t) = 0
      rw [unitLen_cons, if_pos hc]
  | cons c t ih =>
    intro huc rest hrest
    show unitLen (c :: (t ++ rest)) = t.length + 1
    rw [unitLen_cons, if_neg (huc c (by simp)), ih (fun d hd => huc d (by simp [hd])) rest hrest]

theorem pdFrac_nofrac {s1 : List Char} (h : ¬ s1.head? = some '.') :
    pdFrac s1 = (0, 1, s1, false) := by
  unfold pdFrac
  rw [if_neg h]

theorem pdFrac_frac {fd X : List Char}
    (hdig : ∀ c ∈ fd, isDigitChar c = true)
    (hX : X = [] ∨ ∃ c t, X = c :: t ∧ isDigitChar c = false)
    (hle : natOfDigits fd ≤ (2 ^ 63 - 1) / 10)
    (hne : fd ≠ []) :
    pdFrac ('.' :: (fd ++ X)) = (natOfDigits fd, 10 ^ fd.length, X, true) := by
  have hb : natOfDigitsAcc 0 fd = natOfDigits fd := rfl
  have hlf : leadingFractionAux 0 1 false (fd ++ X) = (natOfDigits fd, 1 * 10 ^ fd.length, X) := by
    have h := leadingFractionAux_digits fd X 0 1 hdig hX (by rw [hb]; exact hle)
    rw [hb] at h
    exact h
  unfold pdFrac
  rw [if_pos (show ('.' :: (fd ++ X)).head? = some '.' from rfl)]
  rw [show ('.' :: (fd ++ X)).tail = fd ++ X from rfl]
  rw [hlf]
  dsimp only []
  rw [one_mul, List.length_append]
  rw [decide_eq_true (by
    have h1 : 1 ≤ fd.length := List.length_pos.mpr hne
    omega : ¬ X.length = fd.length + X.length)]

theorem pdUnit_eval (v f scale : Nat) (uc rest : List Char) (unit : Nat)
    (hu : unitMap uc = some unit)
    (huc : ∀ c ∈ uc, (c = '.' ∨ isDigitChar c = true) → False)
    (hrest : rest = [] ∨ ∃ c t, rest = c :: t ∧ (c = '.' ∨ isDigitChar c = true))
    (hvu : v ≤ 2 ^ 63 / unit)
    (hov : v * unit + f * unit / scale ≤ 2 ^ 63) :
    pdUnit v f scale (uc ++ rest) =
      .ok ((if f > 0 then v * unit + f * unit / scale else v * unit), rest) := by
  have hul : unitLen (uc ++ rest) = uc.length := unitLen_append uc huc rest hrest
  have hucne : uc ≠ [] := by
    intro h0
    rw [h0] at hu
    exact unitMap_ne_nil hu
  unfold pdUnit
  rw [hul]
  rw [if_neg (fun h0 => hucne (List.length_eq_zero.mp h0))]
  rw [List.take_left, List.drop_left]
  rw [hu]
  dsimp only []
  rw [if_neg (by omega : ¬ v > 2 ^ 63 / unit)]
  have hcond : ¬(f > 0 ∧ (if f > 0 then v * unit + f * unit / scale else v * unit) > 2 ^ 63) := by
    rintro ⟨hf, hgt⟩
    rw [if_pos hf] at hgt
    omega
  rw [if_neg hcond]

theorem pdSegment_cons (c : Char) (s' : List Char) :
    pdSegment (c :: s') =
      (if ¬(c = '.' ∨ isDigitChar c = true) then .error .invalid
       else
        match leadingIntAux 0 (c :: s') with
        | .error _ => .error .invalid
        | .ok (v, s1) =>
          if s1.length = (c :: s').length ∧ (pdFrac s1).2.2.2 = false then .error .invalid
          else pdUnit v (pdFrac s1).1 (pdFrac s1).2.1 (pdFrac s1).2.2.1) := rfl

theorem pdSegment_eval_nofrac (v0 : Nat) (uc rest : List Char) (unit : Nat)
    (hu : unitMap uc = some unit)
    (huc : ∀ c ∈ uc, (c = '.' ∨ isDigitChar c = true) → False)
    (hrest : rest = [] ∨ ∃ c t, rest = c :: t ∧ (c = '.' ∨ isDigitChar c = true))
    (hv0 : v0 ≤ 2 ^ 63)
    (hupos : 0 < unit)
    (hvu : v0 ≤ 2 ^ 63 / unit) :
    pdSegment (natStr v0 ++ (uc ++ rest)) = .ok (v0 * unit, rest) := by
  have hucne : uc ≠ [] := by
    intro h0
    rw [h0] at hu
    exact unitMap_ne_nil hu
  obtain ⟨cs, ts, hsp, hcd, hcdot⟩ := ucrest_stop hucne huc
  have hX : uc ++ rest = [] ∨ ∃ c t, uc ++ rest = c :: t ∧ isDigitChar c = false :=
    Or.inr ⟨cs, ts, hsp, hcd⟩
  have hLI : leadingIntAux 0 (natStr v0 ++ (uc ++ rest)) = .ok (v0, uc ++ rest) :=
    leadingIntAux_natStr hX hv0
  obtain ⟨d0, ds, hds, hd0⟩ := head_digit_append (natStr v0) (uc ++ rest) (natStr_ne_nil v0)
    (fun c hc => natStr_all_digits hc)
  rw [hds, pdSegment_cons]
  rw [if_neg (show ¬¬(d0 = '.' ∨ isDigitChar d0 = true) from fun hno => hno (Or.inr hd0))]
  rw [← hds, hLI]
  dsimp only []
  rw [if_neg (by
    rintro ⟨hl, -⟩
    have hp := List.length_pos.mpr (natStr_ne_nil v0)
    simp only [List.length_append] at hl
    omega)]
  have hpf : pdFrac (uc ++ rest) = (0, 1, uc ++ rest, false) := by
    rw [hsp]
    apply pdFrac_nofrac
    intro hh
    have hcs : cs = '.' := by
      have h' : some cs = some '.' := hh
      injection h'
    exact hcdot hcs
  rw [hpf]
  dsimp only []
  have hov : v0 * unit + 0 * unit / 1 ≤ 2 ^ 63 := by
    have h := (Nat.le_div_iff_mul_le hupos).mp hvu
    simpa using h
  rw [pdUnit_eval v0 0 1 uc rest unit hu huc hrest hvu hov]
  rw [if_neg (by omega : ¬ 0 > 0)]

theorem pdSegment_eval_frac (v0 : Nat) (fd uc rest : List Char) (unit : Nat)
    (hu : unitMap uc = some unit)
    (huc : ∀ c ∈ uc, (c = '.' ∨ isDigitChar c = true) → False)
    (hrest : rest = [] ∨ ∃ c t, rest = c :: t ∧ (c = '.' ∨ isDigitChar c = true))
    (hfd : ∀ c ∈ fd, isDigitChar c = true)
    (hfdne : fd ≠ [])
    (hfle : natOfDigits fd ≤ (2 ^ 63 - 1) / 10)
    (hfpos : 0 < natOfDigits fd)
    (hv0 : v0 ≤ 2 ^ 63)
    (hvu : v0 ≤ 2 ^ 63 / unit)
    (hov : v0 * unit + natOfDigits fd * unit / 10 ^ fd.length ≤ 2 ^ 63) :
    pdSegment (natStr v0 ++ ('.' :: (fd ++ (uc ++ rest)))) =
      .ok (v0 * unit + natOfDigits fd * unit / 10 ^ fd.length, rest) := by
  have hucne : uc ≠ [] := by
    intro h0
    rw [h0] at hu
    exact unitMap_ne_nil hu
  obtain ⟨cs, ts, hsp, hcd, hcdot⟩ := ucrest_stop hucne huc
  have hX : '.' :: (fd ++ (uc ++ rest)) = [] ∨
      ∃ c t, '.' :: (fd ++ (uc ++ rest)) = c :: t ∧ isDigitChar c = false :=
    Or.inr ⟨'.', fd ++ (uc ++ rest), rfl, by decide⟩
  have hLI : leadingIntAux 0 (natStr v0 ++ ('.' :: (fd ++ (uc ++ rest)))) =
      .ok (v0, '.' :: (fd ++ (uc ++ rest))) := leadingIntAux_natStr hX hv0
  obtain ⟨d0, ds, hds, hd0⟩ := head_digit_append (natStr v0) ('.' :: (fd ++ (uc ++ rest)))
    (natStr_ne_nil v0) (fun c hc => natStr_all_digits hc)
  rw [hds, pdSegment_cons]
  rw [if_neg (show ¬¬(d0 = '.' ∨ isDigitChar d0 = true) from fun hno => hno (Or.inr hd0))]
  rw [← hds, hLI]
  dsimp only []
  have hpf : pdFrac ('.' :: (fd ++ (uc ++ rest))) =
      (natOfDigits fd, 10 ^ fd.length, uc ++ rest, true) :=
    pdFrac_frac hfd (Or.inr ⟨cs, ts, hsp, hcd⟩) hfle hfdne
  rw [hpf]
  dsimp only []
  rw [if_neg (by
    rintro ⟨-, hb⟩
    exact absurd hb (by decide))]
  rw [pdUnit_eval v0 (natOfDigits fd) (10 ^ fd.length) uc rest unit hu huc hrest hvu hov]
  rw [if_pos hfpos]

theorem pdLoop_step_pos {orig s s3 : List Char} {v2 d fuel : Nat}
    (hfuel : 0 < fuel) (hne : s ≠ [])
    (hseg : pdSegment s = .ok (v2, s3)) (hov : d + v2 ≤ 2 ^ 63) :
    pdLoop fuel orig s d = pdLoop (fuel - 1) orig s3 (d + v2) := by
  obtain ⟨f, rfl⟩ : ∃ f, fuel = f + 1 := ⟨fuel - 1, by omega⟩
  obtain ⟨c, s', rfl⟩ : ∃ c s', s = c :: s' := by
    cases s with
    | nil => exact absurd rfl hne
    | cons c s' => exact ⟨c, s', rfl⟩
  rw [pdLoop_cons, hseg]
  dsimp only []
  rw [if_neg (by omega : ¬ d + v2 > 2 ^ 63), Nat.add_sub_cancel]

theorem pdLoop_run1 {orig s : List Char} {v1 : Nat}
    (hne : s ≠ []) (h1 : pdSegment s = .ok (v1, []))
    (hov : v1 ≤ 2 ^ 63) :
    pdLoop (s.length + 1) orig s 0 = .ok v1 := by
  rw [pdLoop_step_pos (by omega) hne h1 (by omega)]
  rw [pdLoop_nil, Nat.zero_add]

theorem pdLoop_run2 {orig s r1 : List Char} {v1 v2 : Nat}
    (hne : s ≠ []) (h1 : pdSegment s = .ok (v1, r1))
    (hr1ne : r1 ≠ []) (h2 : pdSegment r1 = .ok (v2, []))
    (hov : v1 + v2 ≤ 2 ^ 63) :
    pdLoop (s.length + 1) orig s 0 = .ok (v1 + v2) := by
  have hlen : 1 ≤ s.length := List.length_pos.mpr hne
  rw [pdLoop_step_pos (by omega) hne h1 (by omega)]
  rw [pdLoop_step_pos (by omega) hr1ne h2 (by omega)]
  rw [pdLoop_nil, Nat.zero_add]

theorem pdLoop_run3 {orig s r1 r2 : List Char} {v1 v2 v3 : Nat}
    (hne : s ≠ []) (h1 : pdSegment s = .ok (v1, r1))
    (hr1ne : r1 ≠ []) (h2 : pdSegment r1 = .ok (v2, r2))
    (hr2ne : r2 ≠ []) (h3 : pdSegment r2 = .ok (v3, []))
    (hov : v1 + v2 + v3 ≤ 2 ^ 63) :
    pdLoop (s.length + 1) orig s 0 = .ok (v1 + v2 + v3) := by
  have hlen1 : 1 ≤ s.length := List.length_pos.mpr hne
  have hlen2 : 2 ≤ s.length := by
    obtain ⟨pre, hsp, hpne, -⟩ := pdSegment_sub h1
    have h1l : 1 ≤ pre.length := List.length_pos.mpr hpne
    have h2l : 1 ≤ r1.length := List.length_pos.mpr hr1ne
    rw [hsp, List.length_append]
    omega
  rw [pdLoop_step_pos (by omega) hne h1 (by omega)]
  rw [pdLoop_step_pos (by omega) hr1ne h2 (by omega)]
  rw [pdLoop_step_pos (by omega) hr2ne h3 (by omega)]
  rw [pdLoop_nil, Nat.zero_add]

theorem pdTop_pos {orig s : List Char} {u : Nat}
    (hlen : 2 ≤ s.length)
    (hloop : pdLoop (s.length + 1) orig s 0 = .ok u)
    (hle : (u : Int) ≤ i64max) :
    pdTop orig false s = .ok (u : Int) := by
  have h0 : s ≠ ['0'] := by
    intro h
    rw [h] at hlen
    exact absurd hlen (by decide)
  have hnil : s ≠ [] := by
    intro h
    rw [h] at hlen
    exact absurd hlen (by decide)
  unfold pdTop
  rw [if_neg h0, if_neg hnil, hloop]
  dsimp only []
  rw [if_neg (by simp : ¬ (false = true)), if_neg (by omega : ¬ (u : Int) > i64max)]

theorem pdTop_neg {orig s : List Char} {u : Nat}
    (hlen : 2 ≤ s.length)
    (hloop : pdLoop (s.length + 1) orig s 0 = .ok u) :
    pdTop orig true s = .ok (-(u : Int)) := by
  have h0 : s ≠ ['0'] := by
    intro h
    rw [h] at hlen
    exact absurd hlen (by decide)
  have hnil : s ≠ [] := by
    intro h
    rw [h] at hlen
    exact absurd hlen (by decide)
  unfold pdTop
  rw [if_neg h0, if_neg hnil, hloop]
  dsimp only []
  rw [if_pos rfl]

theorem durationString_eq (dv : Int) :
    durationString dv = (if dv < 0 then ['-'] else []) ++ durCore dv.natAbs := by
  by_cases h : dv < 0
  · rw [if_pos h]
    show (if dv < 0 then '-' :: durCore dv.natAbs else durCore dv.natAbs) =
      ['-'] ++ durCore dv.natAbs
    rw [if_pos h]
    rfl
  · rw [if_neg h]
    show (if dv < 0 then '-' :: durCore dv.natAbs else durCore dv.natAbs) =
      [] ++ durCore dv.natAbs
    rw [if_neg h]
    rfl

theorem durCore_ns {u : Nat} (h0 : u ≠ 0) (h3 : u < 1000) :
    durCore u = natStr u ++ ("ns".data) := by
  unfold durCore
  rw [if_pos (by omega : u < 1000000000), if_neg h0, if_pos h3]

theorem durCore_us {u : Nat} (h1 : 1000 ≤ u) (h2 : u < 1000000) :
    durCore u = natStr (fmtFrac u 3).2 ++ (fmtFrac u 3).1 ++ ("µs".data) := by
  unfold durCore
  rw [if_pos (by omega : u < 1000000000), if_neg (by omega : ¬ u = 0),
    if_neg (by omega : ¬ u < 1000), if_pos h2]

theorem durCore_msCase {u : Nat} (h1 : 1000000 ≤ u) (h2 : u < 1000000000) :
    durCore u = natStr (fmtFrac u 6).2 ++ (fmtFrac u 6).1 ++ ("ms".data) := by
  unfold durCore
  rw [if_pos h2, if_neg (by omega : ¬ u = 0), if_neg (by omega : ¬ u < 1000),
    if_neg (by omega : ¬ u < 1000000)]

theorem durCore_sec {u : Nat} (h1 : 1000000000 ≤ u) (h2 : (fmtFrac u 9).2 / 60 = 0) :
    durCore u = secText u := by
  unfold durCore
  rw [if_neg (by omega : ¬ u < 1000000000), if_pos h2]

theorem durCore_min {u : Nat} (h1 : 1000000000 ≤ u) (h2 : ¬ (fmtFrac u 9).2 / 60 = 0)
    (h3 : (fmtFrac u 9).2 / 60 / 60 = 0) :
    durCore u = minText u := by
  unfold durCore
  rw [if_neg (by omega : ¬ u < 1000000000), if_neg h2, if_pos h3]

theorem durCore_hr {u : Nat} (h1 : 1000000000 ≤ u)
    (h2 : ¬ (fmtFrac u 9).2 / 60 = 0) (h3 : ¬ (fmtFrac u 9).2 / 60 / 60 = 0) :
    durCore u = natStr ((fmtFrac u 9).2 / 60 / 60) ++ (['h']) ++ minText u := by
  unfold durCore
  rw [if_neg (by omega : ¬ u < 1000000000), if_neg h2, if_neg h3]

/-! ## Lemmas: the six shapes of `durCore` evaluate back to their value -/

theorem coreShape_facts (A fr uc : List Char)
    (hA : A ≠ []) (hAd : ∀ c ∈ A, isDigitChar c = true)
    (hfr : ∀ c ∈ fr, c = '.' ∨ isDigitChar c = true)
    (hucm : ∀ c ∈ uc, isMagAny c = false)
    (hucne : uc ≠ []) :
    (∃ c t, A ++ fr ++ uc = c :: t ∧ isDigitChar c = true) ∧
    2 ≤ (A ++ fr ++ uc).length ∧ (∀ c ∈ A ++ fr ++ uc, isMagAny c = false) := by
  refine ⟨?_, ?_, ?_⟩
  · rw [List.append_assoc]
    exact head_digit_append A (fr ++ uc) hA hAd
  · simp only [List.length_append]
    have h1 := List.length_pos.mpr hA
    have h2 := List.length_pos.mpr hucne
    omega
  · intro c hc
    rcases List.mem_append.mp hc with hc1 | hc1
    · rcases List.mem_append.mp hc1 with hc2 | hc2
      · exact digit_not_mag (hAd c hc2)
      · exact not_mag_dotdigit (hfr c hc2)
    · exact hucm c hc1

theorem fracText_seg (u p : Nat) (uc : List Char)
    (hu : unitMap uc = some (10 ^ p))
    (hucd : ∀ c ∈ uc, (c = '.' ∨ isDigitChar c = true) → False)
    (hp9 : p ≤ 9)
    (hub : u ≤ 2 ^ 63) :
    pdSegment (natStr (fmtFrac u p).2 ++ (fmtFrac u p).1 ++ uc) = .ok (u, []) := by
  have hupos : 0 < 10 ^ p := Nat.pow_pos (by norm_num)
  have hv0 : u / 10 ^ p ≤ 2 ^ 63 := le_trans (Nat.div_le_self u _) hub
  have hvu : u / 10 ^ p ≤ 2 ^ 63 / 10 ^ p := Nat.div_le_div_right hub
  have hfv : (fmtFrac u p).2 = u / 10 ^ p := fmtFrac_val u p
  by_cases hz : u % 10 ^ p = 0
  · rw [fmtFrac_zero hz]
    dsimp only []
    rw [List.append_nil]
    have hid : u / 10 ^ p * 10 ^ p = u := Nat.div_mul_cancel (Nat.dvd_of_mod_eq_zero hz)
    have h := pdSegment_eval_nofrac (u / 10 ^ p) uc [] (10 ^ p) hu hucd (Or.inl rfl)
      hv0 hupos hvu
    rw [List.append_nil] at h
    rw [h, hid]
  · obtain ⟨fd, heq, hdig, hl1, hlp, hvmod, hfpos, hflt⟩ := fmtFrac_pos hz
    rw [heq]
    dsimp only []
    rw [List.append_assoc, List.cons_append]
    have hfdne : fd ≠ [] := by
      intro h0
      rw [h0] at hl1
      exact absurd hl1 (by decide)
    have hfle : natOfDigits fd ≤ (2 ^ 63 - 1) / 10 := by
      have h10 : (10:Nat) ^ fd.length ≤ 10 ^ 9 :=
        Nat.pow_le_pow_right (by norm_num) (le_trans hlp hp9)
      have hc : ((2:Nat) ^ 63 - 1) / 10 = 922337203685477580 := by norm_num
      have h9 : (10:Nat) ^ 9 = 1000000000 := by norm_num
      omega
    have hfval : natOfDigits fd * 10 ^ p / 10 ^ fd.length = u % 10 ^ p := by
      rw [mul_pow_div_pow (natOfDigits fd) fd.length p hlp]
      exact hvmod
    have hid : u / 10 ^ p * 10 ^ p + u % 10 ^ p = u := by
      rw [Nat.mul_comm]
      exact Nat.div_add_mod u (10 ^ p)
    have h := pdSegment_eval_frac (u / 10 ^ p) fd uc [] (10 ^ p) hu hucd (Or.inl rfl)
      hdig hfdne hfle hfpos hv0 hvu (by rw [hfval, hid]; exact hub)
    rw [List.append_nil] at h
    rw [h, hfval, hid]

theorem core_ns {u : Nat} (h0 : u ≠ 0) (h3 : u < 1000) :
    CoreOK u (natStr u ++ ("ns".data)) := by
  have hb : (2:Nat) ^ 63 = 9223372036854775808 := by norm_num
  have hseg : pdSegment (natStr u ++ ("ns".data)) = .ok (u, []) := by
    have h := pdSegment_eval_nofrac u ("ns".data) [] 1 (by decide) (by decide) (Or.inl rfl)
      (by omega) (by norm_num) (by rw [Nat.div_one]; omega)
    rw [List.append_nil] at h
    rw [h, Nat.mul_one]
  refine ⟨?_, ?_, ?_, ?_⟩
  · intro orig
    exact pdLoop_run1 (append_ne_nil_left (natStr_ne_nil u)) hseg (by omega)
  · exact head_digit_append _ _ (natStr_ne_nil u) (fun c hc => natStr_all_digits hc)
  · rw [List.length_append]
    have hn := List.length_pos.mpr (natStr_ne_nil u)
    have h2 : (("ns".data)).length = 2 := by decide
    omega
  · intro c hc
    rcases List.mem_append.mp hc with hc | hc
    · exact digit_not_mag (natStr_all_digits hc)
    · exact (by decide : ∀ x ∈ ("ns".data), isMagAny x = false) c hc

theorem core_us {u : Nat} (h1 : 1000 ≤ u) (h2 : u < 1000000) :
    CoreOK u (natStr (fmtFrac u 3).2 ++ (fmtFrac u 3).1 ++ ("µs".data)) := by
  have hb : (2:Nat) ^ 63 = 9223372036854775808 := by norm_num
  have hseg := fracText_seg u 3 ("µs".data) (by decide) (by decide) (by omega) (by omega)
  obtain ⟨hhead, hlen, hmag⟩ := coreShape_facts (natStr (fmtFrac u 3).2) ((fmtFrac u 3).1)
    ("µs".data) (natStr_ne_nil _) (fun c hc => natStr_all_digits hc) (fmtFrac_chars u 3)
    (by decide) (by decide)
  exact ⟨fun orig => pdLoop_run1
    (append_ne_nil_left (append_ne_nil_left (natStr_ne_nil _))) hseg (by omega),
    hhead, hlen, hmag⟩

theorem core_msCase {u : Nat} (h1 : 1000000 ≤ u) (h2 : u < 1000000000) :
    CoreOK u (natStr (fmtFrac u 6).2 ++ (fmtFrac u 6).1 ++ ("ms".data)) := by
  have hb : (2:Nat) ^ 63 = 9223372036854775808 := by norm_num
  have hseg := fracText_seg u 6 ("ms".data) (by decide) (by decide) (by omega) (by omega)
  obtain ⟨hhead, hlen, hmag⟩ := coreShape_facts (natStr (fmtFrac u 6).2) ((fmtFrac u 6).1)
    ("ms".data) (natStr_ne_nil _) (fun c hc => natStr_all_digits hc) (fmtFrac_chars u 6)
    (by decide) (by decide)
  exact ⟨fun orig => pdLoop_run1
    (append_ne_nil_left (append_ne_nil_left (natStr_ne_nil _))) hseg (by omega),
    hhead, hlen, hmag⟩

theorem secText_seg {u : Nat} (hu9 : 1000000000 ≤ u) (hu : u ≤ 2 ^ 63) :
    pdSegment (secText u) = .ok (u / 1000000000 % 60 * 1000000000 + u % 1000000000, []) ∧
    (∃ c t, secText u = c :: t ∧ isDigitChar c = true) ∧
    2 ≤ (secText u).length ∧ (∀ c ∈ secText u, isMagAny c = false) := by
  have hb : (2:Nat) ^ 63 = 9223372036854775808 := by norm_num
  have hp9 : (10:Nat) ^ 9 = 1000000000 := by norm_num
  have hvv : (fmtFrac u 9).2 = u / 10 ^ 9 := fmtFrac_val u 9
  have hm : u / 1000000000 % 60 < 60 := Nat.mod_lt _ (by norm_num)
  have hc9 : (2:Nat) ^ 63 / 1000000000 = 9223372036 := by norm_num
  obtain ⟨hhead, hlen, hmag⟩ := coreShape_facts (natStr ((fmtFrac u 9).2 % 60))
    ((fmtFrac u 9).1) (['s']) (natStr_ne_nil _) (fun c hc => natStr_all_digits hc)
    (fmtFrac_chars u 9) (by decide) (by decide)
  refine ⟨?_, ?_, ?_, ?_⟩
  · show pdSegment (natStr ((fmtFrac u 9).2 % 60) ++ (fmtFrac u 9).1 ++ (['s'])) = _
    rw [hvv, hp9]
    by_cases hz : u % 10 ^ 9 = 0
    · rw [fmtFrac_zero hz]
      dsimp only []
      rw [List.append_nil]
      have hz' : u % 1000000000 = 0 := by rw [hp9] at hz; exact hz
      have h := pdSegment_eval_nofrac (u / 1000000000 % 60) (['s']) [] 1000000000
        (by decide) (by decide) (Or.inl rfl) (by omega) (by norm_num) (by omega)
      rw [List.append_nil] at h
      rw [h, hz', Nat.add_zero]
    · obtain ⟨fd, heq, hdig, hl1, hl9, hvmod, hfpos, hflt⟩ := fmtFrac_pos hz
      rw [heq]
      dsimp only []
      rw [List.append_assoc, List.cons_append]
      have hfdne : fd ≠ [] := by
        intro hfe
        rw [hfe] at hl1
        exact absurd hl1 (by decide)
      have hfle : natOfDigits fd ≤ (2 ^ 63 - 1) / 10 := by
        have h10 : (10:Nat) ^ fd.length ≤ 10 ^ 9 := Nat.pow_le_pow_right (by norm_num) hl9
        have hcc : ((2:Nat) ^ 63 - 1) / 10 = 922337203685477580 := by norm_num
        omega
      have hfval : natOfDigits fd * 1000000000 / 10 ^ fd.length = u % 1000000000 := by
        have h := mul_pow_div_pow (natOfDigits fd) fd.length 9 hl9
        rw [hp9] at h
        rw [h]
        rw [hp9] at hvmod
        exact hvmod
      have hmm : u % 1000000000 < 1000000000 := Nat.mod_lt _ (by norm_num)
      have h := pdSegment_eval_frac (u / 1000000000 % 60) fd (['s']) [] 1000000000
        (by decide) (by decide) (Or.inl rfl) hdig hfdne hfle hfpos (by omega) (by omega)
        (by rw [hfval]; omega)
      rw [List.append_nil] at h
      rw [h, hfval]
  · exact hhead
  · exact hlen
  · exact hmag

theorem core_sec {u : Nat} (hu9 : 1000000000 ≤ u) (hu : u ≤ 2 ^ 63)
    (h2 : (fmtFrac u 9).2 / 60 = 0) : CoreOK u (secText u) := by
  obtain ⟨hseg, hhead, hlen, hmag⟩ := secText_seg hu9 hu
  have hvv : (fmtFrac u 9).2 = u / 10 ^ 9 := fmtFrac_val u 9
  have hp9 : (10:Nat) ^ 9 = 1000000000 := by norm_num
  have h2' : u / 1000000000 / 60 = 0 := by rw [hvv, hp9] at h2; exact h2
  have hval : u / 1000000000 % 60 * 1000000000 + u % 1000000000 = u := by omega
  rw [hval] at hseg
  obtain ⟨c, t, hct, hcd⟩ := hhead
  refine ⟨?_, ⟨c, t, hct, hcd⟩, hlen, hmag⟩
  intro orig
  exact pdLoop_run1 (by rw [hct]; simp) hseg hu

theorem minText_seg {u : Nat} (hu9 : 1000000000 ≤ u) (hu : u ≤ 2 ^ 63) :
    pdSegment (minText u) = .ok (u / 1000000000 / 60 % 60 * 60000000000, secText u) ∧
    (∃ c t, minText u = c :: t ∧ isDigitChar c = true) ∧
    (∀ c ∈ minText u, isMagAny c = false) := by
  obtain ⟨-, hhead2, -, hmag2⟩ := secText_seg hu9 hu
  have hb : (2:Nat) ^ 63 = 9223372036854775808 := by norm_num
  have hp9 : (10:Nat) ^ 9 = 1000000000 := by norm_num
  have hvv : (fmtFrac u 9).2 = u / 10 ^ 9 := fmtFrac_val u 9
  obtain ⟨c2, t2, hct2, hcd2⟩ := hhead2
  have hm60 : u / 1000000000 / 60 % 60 < 60 := Nat.mod_lt _ (by norm_num)
  have hc60 : (2:Nat) ^ 63 / 60000000000 = 153722867 := by norm_num
  refine ⟨?_, ?_, ?_⟩
  · show pdSegment (natStr ((fmtFrac u 9).2 / 60 % 60) ++ (['m']) ++ secText u) = _
    rw [hvv, hp9, List.append_assoc]
    exact pdSegment_eval_nofrac (u / 1000000000 / 60 % 60) (['m']) (secText u) 60000000000
      (by decide) (by decide) (Or.inr ⟨c2, t2, hct2, Or.inr hcd2⟩) (by omega) (by norm_num)
      (by omega)
  · show ∃ c t, natStr ((fmtFrac u 9).2 / 60 % 60) ++ (['m']) ++ secText u = c :: t ∧
      isDigitChar c = true
    rw [List.append_assoc]
    exact head_digit_append _ _ (natStr_ne_nil _) (fun c hc => natStr_all_digits hc)
  · intro c hc
    have hc' : c ∈ natStr ((fmtFrac u 9).2 / 60 % 60) ++ (['m']) ++ secText u := hc
    rcases List.mem_append.mp hc' with hc1 | hc1
    · rcases List.mem_append.mp hc1 with hc2 | hc2
      · exact digit_not_mag (natStr_all_digits hc2)
      · exact (by decide : ∀ x ∈ (['m'] : List Char), isMagAny x = false) c hc2
    · exact hmag2 c hc1

theorem core_min {u : Nat} (hu9 : 1000000000 ≤ u) (hu : u ≤ 2 ^ 63)
    (h3 : (fmtFrac u 9).2 / 60 / 60 = 0) : CoreOK u (minText u) := by
  obtain ⟨hseg2, hhead3, hlen3, hmag3⟩ := secText_seg hu9 hu
  obtain ⟨hseg1, hhead1, hmag1⟩ := minText_seg hu9 hu
  have hb : (2:Nat) ^ 63 = 9223372036854775808 := by norm_num
  have hp9 : (10:Nat) ^ 9 = 1000000000 := by norm_num
  have hvv : (fmtFrac u 9).2 = u / 10 ^ 9 := fmtFrac_val u 9
  have h3' : u / 1000000000 / 60 / 60 = 0 := by rw [hvv, hp9] at h3; exact h3
  obtain ⟨c1, t1, hct1, hcd1⟩ := hhead1
  obtain ⟨c2, t2, hct2, hcd2⟩ := hhead3
  have hmne : minText u ≠ [] := by rw [hct1]; simp
  have hsne : secText u ≠ [] := by rw [hct2]; simp
  have hval : u / 1000000000 / 60 % 60 * 60000000000 +
      (u / 1000000000 % 60 * 1000000000 + u % 1000000000) = u := by omega
  refine ⟨?_, ⟨c1, t1, hct1, hcd1⟩, ?_, hmag1⟩
  · intro orig
    rw [pdLoop_run2 hmne hseg1 hsne hseg2 (by omega), hval]
  · show 2 ≤ (natStr ((fmtFrac u 9).2 / 60 % 60) ++ (['m']) ++ secText u).length
    simp only [List.length_append]
    have hn := List.length_pos.mpr (natStr_ne_nil ((fmtFrac u 9).2 / 60 % 60))
    omega

theorem core_hr {u : Nat} (hu9 : 1000000000 ≤ u) (hu : u ≤ 2 ^ 63)
    (h3 : ¬ (fmtFrac u 9).2 / 60 / 60 = 0) :
    CoreOK u (natStr ((fmtFrac u 9).2 / 60 / 60) ++ (['h']) ++ minText u) := by
  obtain ⟨hseg3, hhead3, hlen3, hmag3⟩ := secText_seg hu9 hu
  obtain ⟨hseg2, hhead2, hmag2⟩ := minText_seg hu9 hu
  have hb : (2:Nat) ^ 63 = 9223372036854775808 := by norm_num
  have hp9 : (10:Nat) ^ 9 = 1000000000 := by norm_num
  have hvv : (fmtFrac u 9).2 = u / 10 ^ 9 := fmtFrac_val u 9
  obtain ⟨c1, t1, hct1, hcd1⟩ := hhead2
  obtain ⟨c2, t2, hct2, hcd2⟩ := hhead3
  have hmne : minText u ≠ [] := by rw [hct1]; simp
  have hsne : secText u ≠ [] := by rw [hct2]; simp
  have hseg1 : pdSegment (natStr ((fmtFrac u 9).2 / 60 / 60) ++ (['h']) ++ minText u) =
      .ok (u / 1000000000 / 60 / 60 * 3600000000000, minText u) := by
    rw [hvv, hp9, List.append_assoc]
    exact pdSegment_eval_nofrac (u / 1000000000 / 60 / 60) (['h']) (minText u) 3600000000000
      (by decide) (by decide) (Or.inr ⟨c1, t1, hct1, Or.inr hcd1⟩) (by omega) (by norm_num)
      (by
        have hdd : u / 1000000000 / 60 / 60 = u / 3600000000000 := by omega
        rw [hdd]
        exact Nat.div_le_div_right hu)
  have hval : u / 1000000000 / 60 / 60 * 3600000000000 +
      u / 1000000000 / 60 % 60 * 60000000000 +
      (u / 1000000000 % 60 * 1000000000 + u % 1000000000) = u := by omega
  refine ⟨?_, ?_, ?_, ?_⟩
  · intro orig
    rw [pdLoop_run3 (append_ne_nil_left (append_ne_nil_left (natStr_ne_nil _))) hseg1 hmne
      hseg2 hsne hseg3 (by omega), hval]
  · rw [List.append_assoc]
    exact head_digit_append _ _ (natStr_ne_nil _) (fun c hc => natStr_all_digits hc)
  · simp only [List.length_append]
    have hn := List.length_pos.mpr (natStr_ne_nil ((fmtFrac u 9).2 / 60 / 60))
    have hg : ((['h']) : List Char).length = 1 := rfl
    omega
  · intro c hc
    rcases List.mem_append.mp hc with hc1 | hc1
    · rcases List.mem_append.mp hc1 with hc2 | hc2
      · exact digit_not_mag (natStr_all_digits hc2)
      · exact (by decide : ∀ x ∈ (['h'] : List Char), isMagAny x = false) c hc2
    · exact hmag2 c hc1

theorem durCore_spec {u : Nat} (h1 : 1 ≤ u) (h2 : u ≤ 2 ^ 63) : CoreOK u (durCore u) := by
  by_cases hu9 : u < 1000000000
  · by_cases hu3 : u < 1000
    · rw [durCore_ns (by omega) hu3]
      exact core_ns (by omega) hu3
    · by_cases hu6 : u < 1000000
      · rw [durCore_us (by omega) hu6]
        exact core_us (by omega) hu6
      · rw [durCore_msCase (by omega) hu9]
        exact core_msCase (by omega) hu9
  · by_cases hm : (fmtFrac u 9).2 / 60 = 0
    · rw [durCore_sec (by omega) hm]
      exact core_sec (by omega) h2 hm
    · by_cases hh : (fmtFrac u 9).2 / 60 / 60 = 0
      · rw [durCore_min (by omega) hm hh]
        exact core_min (by omega) h2 hh
      · rw [durCore_hr (by omega) hm hh]
        exact core_hr (by omega) h2 hh

theorem natAbs_bounds {dv : Int} (h1 : i64min ≤ dv) (h2 : dv ≤ i64max) (hz : dv ≠ 0) :
    1 ≤ dv.natAbs ∧ dv.natAbs ≤ 2 ^ 63 := by
  have h1' : -((2:Int) ^ 63) ≤ dv := h1
  have h2' : dv ≤ (2:Int) ^ 63 - 1 := h2
  have hmin : (2:Int) ^ 63 = 9223372036854775808 := by norm_num
  have hN : (2:Nat) ^ 63 = 9223372036854775808 := by norm_num
  rw [hmin] at h1' h2'
  rw [hN]
  omega

theorem ParseDuration_durationString {dv : Int} (h1 : i64min ≤ dv) (h2 : dv ≤ i64max) :
    ParseDuration (durationString dv) = .ok dv := by
  by_cases hz : dv = 0
  · subst hz
    decide
  · obtain ⟨hu1, hu2⟩ := natAbs_bounds h1 h2 hz
    obtain ⟨hloop, hhead, hlen, hmag⟩ := durCore_spec hu1 hu2
    rw [durationString_eq]
    by_cases hneg : dv < 0
    · rw [if_pos hneg, List.singleton_append]
      unfold ParseDuration
      rw [if_pos (show ('-' :: durCore dv.natAbs).head? = some '-' from rfl)]
      rw [show ('-' :: durCore dv.natAbs).tail = durCore dv.natAbs from rfl]
      rw [pdTop_neg hlen (hloop _)]
      have hd : -((dv.natAbs : Nat) : Int) = dv := by omega
      rw [hd]
    · rw [if_neg hneg, List.nil_append]
      obtain ⟨c, t, hct, hcd⟩ := hhead
      have hle : ((dv.natAbs : Nat) : Int) ≤ i64max := by
        have hd : ((dv.natAbs : Nat) : Int) = dv := by omega
        rw [hd]
        exact h2
      unfold ParseDuration
      rw [hct]
      rw [show (c :: t).head? = some c from rfl]
      have hc1 : ¬ ((some c : Option Char) = some '-') := by
        intro h
        injection h with h'
        rw [h'] at hcd
        exact absurd hcd (by decide)
      have hc2 : ¬ ((some c : Option Char) = some '+') := by
        intro h
        injection h with h'
        rw [h'] at hcd
        exact absurd hcd (by decide)
      rw [if_neg hc1, if_neg hc2, ← hct]
      rw [pdTop_pos hlen (hloop _) hle]
      have hd : ((dv.natAbs : Nat) : Int) = dv := by omega
      rw [hd]

theorem durationString_no_mag {dv : Int} (h1 : i64min ≤ dv) (h2 : dv ≤ i64max) :
    containsMag (durationString dv) = false := by
  by_cases hz : dv = 0
  · subst hz
    decide
  · obtain ⟨hu1, hu2⟩ := natAbs_bounds h1 h2 hz
    obtain ⟨-, -, -, hmag⟩ := durCore_spec hu1 hu2
    rw [durationString_eq]
    apply containsMag_false_of
    intro c hc
    rcases List.mem_append.mp hc with hc1 | hc1
    · by_cases hneg : dv < 0
      · rw [if_pos hneg] at hc1
        have hcm : c = '-' := by simpa using hc1
        rw [hcm]
        decide
      · rw [if_neg hneg] at hc1
        exact absurd hc1 (by simp)
    · exact hmag c hc1

/-! ## Lemmas: the scan loop on rendered calendar fields -/

theorem noNegThenPos_cons (x : Int) (t : List Int) (sn : Bool) :
    noNegThenPos (x :: t) sn =
      if 0 < x ∧ sn = true then false
      else noNegThenPos t (sn || decide (x < 0)) := rfl

theorem noNegThenPos3 {a b c : Int} (h : noNegThenPos [a, b, c] false = true) :
    (a < 0 → ¬ 0 < b) ∧ (a < 0 ∨ b < 0 → ¬ 0 < c) := by
  rw [noNegThenPos_cons, if_neg (by simp)] at h
  rw [noNegThenPos_cons] at h
  by_cases hab : 0 < b ∧ (false || decide (a < 0)) = true
  · rw [if_pos hab] at h
    exact absurd h (by simp)
  · rw [if_neg hab] at h
    rw [noNegThenPos_cons] at h
    by_cases hbc : 0 < c ∧ ((false || decide (a < 0)) || decide (b < 0)) = true
    · rw [if_pos hbc] at h
      exact absurd h (by simp)
    · constructor
      · intro ha hb
        exact hab ⟨hb, by simp [decide_eq_true ha]⟩
      · intro hor hc
        apply hbc
        refine ⟨hc, ?_⟩
        rcases hor with ha | hb
        · simp [decide_eq_true ha]
        · simp [decide_eq_true hb]

theorem mag_not_signdigit {L : Char} (h : isMagAny L = true) :
    ¬(L = '-' ∨ L = '+') ∧ isDigitChar L = false := by
  unfold isMagAny at h
  by_cases hin : L = 'Y' ∨ L = 'M' ∨ L = 'W' ∨ L = 'D' ∨ L = 'd'
  · rcases hin with rfl | rfl | rfl | rfl | rfl <;> exact ⟨by decide, by decide⟩
  · rw [if_neg hin] at h
    exact absurd h (by decide)

theorem set_Y (a : Int) : newMagset.set 'Y' a = .ok (msOf a 0 0 true false false) := rfl

theorem set_M (fy : Bool) (a b : Int) :
    (msOf a 0 0 fy false false).set 'M' b = .ok (msOf a b 0 fy true false) := rfl

theorem set_D (fy fm : Bool) (a b c : Int) :
    (msOf a b 0 fy fm false).set 'D' c = .ok (msOf a b c fy fm true) := rfl

theorem runLoop_acc :
    ∀ (ds rest : List Char) (st : LoopState), (∀ c ∈ ds, isDigitChar c = true) →
      containsMag rest = true →
      runLoop (ds ++ rest) st = runLoop rest { st with coef := st.coef ++ ds } := by
  intro ds
  induction ds with
  | nil =>
    intro rest st _ _
    show runLoop rest st = runLoop rest { st with coef := st.coef ++ [] }
    rw [List.append_nil]
  | cons c t ih =>
    intro rest st hdig hmag
    have hc : isDigitChar c = true := hdig c (by simp)
    have hmag2 : containsMag (c :: (t ++ rest)) = true := by
      rw [containsMag_cons, containsMag_append, hmag]
      simp
    show runLoop (c :: (t ++ rest)) st = _
    rw [runLoop_step_accept hmag2 (appendRune_digit st.coef hc)]
    rw [ih rest { st with coef := st.coef ++ [c] } (fun d hd => hdig d (by simp [hd])) hmag]
    have hcoef : (st.coef ++ [c]) ++ t = st.coef ++ (c :: t) := by
      rw [List.append_assoc, List.singleton_append]
    dsimp only []
    rw [hcoef]

theorem containsMag_field (v : Int) (L : Char) (X : List Char) (hL : isMagAny L = true) :
    containsMag (intStr v ++ (L :: X)) = true := by
  rw [containsMag_append, containsMag_cons, hL]
  simp

theorem runLoop_field {v : Int} {L : Char} {rest : List Char} {st : LoopState} {ms' : Magset}
    (hL : isMagAny L = true)
    (hcoef : st.coef = [])
    (h1 : i64min ≤ v) (h2 : v ≤ i64max)
    (hsign : st.sign < 0 → v < 0)
    (hset : st.ms.set L v = .ok ms') :
    runLoop (intStr v ++ (L :: rest)) st =
      runLoop rest
        { st with ms := ms', sign := if v < 0 then -1 else 1, valid := true, coef := [] } := by
  have hLmag : containsMag (L :: rest) = true := containsMag_has (by simp) hL
  have hns := mag_not_signdigit hL
  by_cases hneg : v < 0
  · have hint : intStr v = '-' :: natStr v.natAbs := by
      unfold intStr
      rw [if_pos hneg]
    rw [hint, List.cons_append]
    have hmag1 : containsMag ('-' :: (natStr v.natAbs ++ (L :: rest))) = true := by
      rw [containsMag_cons, containsMag_append, hLmag]
      simp
    rw [runLoop_step_accept hmag1 (appendRune_sign st.coef (Or.inl rfl) (by rw [hcoef]; decide))]
    rw [runLoop_acc (natStr v.natAbs) (L :: rest) _ (fun c hc => natStr_all_digits hc) hLmag]
    dsimp only []
    have hcoefeq : (st.coef ++ ['-']) ++ natStr v.natAbs = intStr v := by
      rw [hcoef, List.nil_append, List.singleton_append, hint]
    rw [hcoefeq]
    exact runLoop_commit hLmag (appendRune_reject _ hns.1 hns.2) (value_intStr h1 h2 hsign) hset
  · have hint : intStr v = natStr v.natAbs := by
      unfold intStr
      rw [if_neg hneg]
    rw [hint]
    rw [runLoop_acc (natStr v.natAbs) (L :: rest) st (fun c hc => natStr_all_digits hc) hLmag]
    have hcoefeq : st.coef ++ natStr v.natAbs = intStr v := by
      rw [hcoef, List.nil_append, hint]
    rw [hcoefeq]
    exact runLoop_commit hLmag (appendRune_reject _ hns.1 hns.2) (value_intStr h1 h2 hsign) hset

theorem durationString_shape {dv : Int} (h1 : i64min ≤ dv) (h2 : dv ≤ i64max) :
    ∃ c t, durationString dv = c :: t := by
  by_cases hz : dv = 0
  · subst hz
    exact ⟨'0', ['s'], by decide⟩
  · obtain ⟨hu1, hu2⟩ := natAbs_bounds h1 h2 hz
    obtain ⟨-, ⟨c, t, hct, -⟩, -, -⟩ := durCore_spec hu1 hu2
    rw [durationString_eq]
    by_cases hneg : dv < 0
    · exact ⟨'-', durCore dv.natAbs, by rw [if_pos hneg, List.singleton_append]⟩
    · exact ⟨c, t, by rw [if_neg hneg, List.nil_append, hct]⟩

theorem runLoop_durPart {dur : Int} {st : LoopState} (h1 : i64min ≤ dur) (h2 : dur ≤ i64max)
    (hd : st.dur = 0) (hv : st.valid = true) :
    runLoop (if dur ≠ 0 then durationString dur else []) st =
      .ok { st with dur := dur, valid := true } := by
  by_cases hz : dur ≠ 0
  · rw [if_pos hz]
    obtain ⟨cd, td, hdt⟩ := durationString_shape h1 h2
    have hPD : ParseDuration (cd :: td) = .ok dur := by
      rw [← hdt]
      exact ParseDuration_durationString h1 h2
    rw [hdt]
    exact runLoop_duration st hPD
  · rw [if_neg hz, runLoop_nil]
    have hz' : dur = 0 := by simpa using hz
    subst hz'
    have hst : st = { st with dur := 0, valid := true } := by
      cases st with
      | mk ms sign valid coef dur0 =>
        dsimp only [] at hd hv ⊢
        rw [hd, hv]
    rw [← hst]

theorem assoc4 (a b c d : List Char) : ((a ++ b) ++ c) ++ d = a ++ (b ++ (c ++ d)) := by
  simp [List.append_assoc]

theorem field_shape (v : Int) (L : Char) (X : List Char) :
    (intStr v ++ [L]) ++ X = intStr v ++ (L :: X) := by
  rw [List.append_assoc, List.singleton_append]

theorem finish_ok {s : List Char} {st : LoopState} {Y M D dur : Int}
    (hv : st.valid = true)
    (hgY : st.ms.get 'Y' = Y) (hgM : st.ms.get 'M' = M)
    (hgD : st.ms.get 'D' = D) (hgW : st.ms.get 'W' = 0)
    (hgdur : st.dur = dur)
    (hD1 : i64min ≤ D) (hD2 : D ≤ i64max) :
    finishParse s st = .ok { Years := Y, Months := M, Days := D, Duration := dur } := by
  rw [finishParse_valid hv, hgY, hgM, hgD, hgW, hgdur]
  have hw0 : wrap64 ((0:Int) * 7) = 0 := by decide
  rw [hw0, Int.add_zero, wrap64_eq_self hD1 hD2]

/--
C1 (amended): the renderer's output is re-parseable and round-trips on the
nose for every `Timespan` whose four fields are within the `int64` range,
which is not identically zero (the zero value renders as `""`, which
`ParseTimespan` rejects), and whose nonzero calendar fields never place a
positive value after a negative one (otherwise the scan loop's sign carry
corrupts the re-parse): `ParseTimespan (ts.render) = .ok ts`.
-/
theorem claim_C1_roundtrip (ts : Timespan) (hR : ts.inRange)
    (hne : ¬(ts.Years = 0 ∧ ts.Months = 0 ∧ ts.Days = 0 ∧ ts.Duration = 0))
    (hsOK : ts.signOK = true) :
    ParseTimespan (Timespan.render ts) = .ok ts := by
  obtain ⟨Y, M, D, dur⟩ := ts
  have hR' : i64min ≤ Y ∧ Y ≤ i64max ∧ i64min ≤ M ∧ M ≤ i64max ∧
      i64min ≤ D ∧ D ≤ i64max ∧ i64min ≤ dur ∧ dur ≤ i64max := hR
  obtain ⟨hY1, hY2, hM1, hM2, hD1, hD2, hq1, hq2⟩ := hR'
  have hs' : noNegThenPos [Y, M, D] false = true := hsOK
  have hns := noNegThenPos3 hs'
  unfold Timespan.render
  dsimp only []
  by_cases hY : Y = 0
  · subst hY
    rw [if_neg (by decide : ¬((0:Int) ≠ 0))]
    by_cases hM : M = 0
    · subst hM
      rw [if_neg (by decide : ¬((0:Int) ≠ 0))]
      by_cases hD : D = 0
      · subst hD
        rw [if_neg (by decide : ¬((0:Int) ≠ 0))]
        have hdne : dur ≠ 0 := fun hd => hne ⟨rfl, rfl, rfl, hd⟩
        rw [if_pos hdne]
        simp only [List.nil_append]
        rw [ParseTimespan_nomag (durationString_no_mag hq1 hq2)]
        rw [ParseDuration_durationString hq1 hq2]
      · rw [if_pos hD, List.nil_append, List.nil_append]
        rw [field_shape]
        rw [ParseTimespan_mag (containsMag_field D 'D' _ (by decide))]
        rw [runLoop_field (by decide : isMagAny 'D' = true) rfl hD1 hD2
          (fun h => absurd h (by decide)) (set_D false false 0 0 D)]
        rw [runLoop_durPart hq1 hq2 rfl rfl]
        dsimp only []
        exact finish_ok rfl rfl rfl rfl rfl rfl hD1 hD2
    · rw [if_pos hM]
      by_cases hD : D = 0
      · subst hD
        rw [if_neg (by decide : ¬((0:Int) ≠ 0))]
        rw [List.nil_append, List.append_nil]
        rw [field_shape]
        rw [ParseTimespan_mag (containsMag_field M 'M' _ (by decide))]
        rw [runLoop_field (by decide : isMagAny 'M' = true) rfl hM1 hM2
          (fun h => absurd h (by decide)) (set_M false 0 M)]
        rw [runLoop_durPart hq1 hq2 rfl rfl]
        dsimp only []
        exact finish_ok rfl rfl rfl rfl rfl rfl hD1 hD2
      · rw [if_pos hD]
        have hsD : (if M < 0 then (-1:Int) else 1) < 0 → D < 0 := by
          intro hlt
          by_cases hm : M < 0
          · have := hns.2 (Or.inr hm)
            omega
          · rw [if_neg hm] at hlt
            exact absurd hlt (by decide)
        rw [List.nil_append, List.append_assoc]
        rw [field_shape, field_shape]
        rw [ParseTimespan_mag (containsMag_field M 'M' _ (by decide))]
        rw [runLoop_field (by decide : isMagAny 'M' = true) rfl hM1 hM2
          (fun h => absurd h (by decide)) (set_M false 0 M)]
        rw [runLoop_field (by decide : isMagAny 'D' = true) rfl hD1 hD2 hsD
          (set_D false true 0 M D)]
        rw [runLoop_durPart hq1 hq2 rfl rfl]
        dsimp only []
        exact finish_ok rfl rfl rfl rfl rfl rfl hD1 hD2
  · rw [if_pos hY]
    by_cases hM : M = 0
    · subst hM
      rw [if_neg (by decide : ¬((0:Int) ≠ 0))]
      by_cases hD : D = 0
      · subst hD
        rw [if_neg (by decide : ¬((0:Int) ≠ 0))]
        rw [List.append_nil, List.append_nil]
        rw [field_shape]
        rw [ParseTimespan_mag (containsMag_field Y 'Y' _ (by decide))]
        rw [runLoop_field (by decide : isMagAny 'Y' = true) rfl hY1 hY2
          (fun h => absurd h (by decide)) (set_Y Y)]
        rw [runLoop_durPart hq1 hq2 rfl rfl]
        dsimp only []
        exact finish_ok rfl rfl rfl rfl rfl rfl hD1 hD2
      · rw [if_pos hD]
        have hsD : (if Y < 0 then (-1:Int) else 1) < 0 → D < 0 := by
          intro hlt
          by_cases hy : Y < 0
          · have := hns.2 (Or.inl hy)
            omega
          · rw [if_neg hy] at hlt
            exact absurd hlt (by decide)
        rw [List.append_nil, List.append_assoc]
        rw [field_shape, field_shape]
        rw [ParseTimespan_mag (containsMag_field Y 'Y' _ (by decide))]
        rw [runLoop_field (by decide : isMagAny 'Y' = true) rfl hY1 hY2
          (fun h => absurd h (by decide)) (set_Y Y)]
        rw [runLoop_field (by decide : isMagAny 'D' = true) rfl hD1 hD2 hsD
          (set_D true false Y 0 D)]
        rw [runLoop_durPart hq1 hq2 rfl rfl]
        dsimp only []
        exact finish_ok rfl rfl rfl rfl rfl rfl hD1 hD2
    · rw [if_pos hM]
      have hsM : (if Y < 0 then (-1:Int) else 1) < 0 → M < 0 := by
        intro hlt
        by_cases hy : Y < 0
        · have := hns.1 hy
          omega
        · rw [if_neg hy] at hlt
          exact absurd hlt (by decide)
      by_cases hD : D = 0
      · subst hD
        rw [if_neg (by decide : ¬((0:Int) ≠ 0))]
        rw [List.append_nil, List.append_assoc]
        rw [field_shape, field_shape]
        rw [ParseTimespan_mag (containsMag_field Y 'Y' _ (by decide))]
        rw [runLoop_field (by decide : isMagAny 'Y' = true) rfl hY1 hY2
          (fun h => absurd h (by decide)) (set_Y Y)]
        rw [runLoop_field (by decide : isMagAny 'M' = true) rfl hM1 hM2 hsM
          (set_M true Y M)]
        rw [runLoop_durPart hq1 hq2 rfl rfl]
        dsimp only []
        exact finish_ok rfl rfl rfl rfl rfl rfl hD1 hD2
      · rw [if_pos hD]
        have hsD : (if M < 0 then (-1:Int) else 1) < 0 → D < 0 := by
          intro hlt
          by_cases hm : M < 0
          · have := hns.2 (Or.inr hm)
            omega
          · rw [if_neg hm] at hlt
            exact absurd hlt (by decide)
        rw [assoc4]
        rw [field_shape, field_shape, field_shape]
        rw [ParseTimespan_mag (containsMag_field Y 'Y' _ (by decide))]
        rw [runLoop_field (by decide : isMagAny 'Y' = true) rfl hY1 hY2
          (fun h => absurd h (by decide)) (set_Y Y)]
        rw [runLoop_field (by decide : isMagAny 'M' = true) rfl hM1 hM2 hsM
          (set_M true Y M)]
        rw [runLoop_field (by decide : isMagAny 'D' = true) rfl hD1 hD2 hsD
          (set_D true true Y M D)]
        rw [runLoop_durPart hq1 hq2 rfl rfl]
        dsimp only []
        exact finish_ok rfl rfl rfl rfl rfl rfl hD1 hD2

/--
C1 (counterexample): the claim fails as stated.  The grammar accepts "0Y"
and "-1Y+2M", but neither input round-trips: parsing "0Y" succeeds with the
all-zero Timespan, which renders as the empty string, and re-parsing ""
fails with the bad-duration error kind; parsing "-1Y+2M" yields
Years = -1, Months = +2, which renders as "-1Y2M", and re-parsing that
yields Months = -2 — not equal field-for-field to the first parse.
-/
theorem claim_C1_counterexample :
    (grammarAccepts ("0Y".data) = true ∧
      ParseTimespan ("0Y".data) = .ok { } ∧
      Timespan.render { } = [] ∧
      resultKind (ParseTimespan (Timespan.render { })) = some .badDurationErr) ∧
    (grammarAccepts ("-1Y+2M".data) = true ∧
      ParseTimespan ("-1Y+2M".data) = .ok { Years := -1, Months := 2 } ∧
      ParseTimespan (Timespan.render { Years := -1, Months := 2 }) =
        .ok { Years := -1, Months := -2 } ∧
      ({ Years := -1, Months := -2 } : Timespan) ≠ { Years := -1, Months := 2 }) :=
  ⟨⟨by decide, by decide, by decide, by decide⟩,
    ⟨by decide, by decide, by decide, by decide⟩⟩

/-- Witness: the amended C1 round trip at a concrete three-field value with
an hour-minute-second duration carrying a nanosecond fraction. -/
theorem claim_C1_roundtrip_witness :
    ({ Years := 2, Months := -3, Days := -29, Duration := -3661000000001 } : Timespan).inRange ∧
    Timespan.signOK { Years := 2, Months := -3, Days := -29, Duration := -3661000000001 } = true ∧
    ParseTimespan
        (Timespan.render { Years := 2, Months := -3, Days := -29, Duration := -3661000000001 }) =
      .ok { Years := 2, Months := -3, Days := -29, Duration := -3661000000001 } :=
  ⟨by decide, by decide,
    claim_C1_roundtrip _ (by decide) (by decide) (by decide)⟩
